import Mathlib

/-!
Verification development for the blueprint tag-resolution engine of
src/authentik/blueprints/v1/common.py.

The Python module is embedded shallowly:

* Val is the tree of YAML-decoded values; the ten YAMLTag subclasses are
  constructors of Val (a tag object is just another node of the decoded
  document tree).  A For tag carries a numeric identifier fid standing
  for Python object identity: the document codec disables aliasing, so
  distinct For nodes of one document are distinct objects, which we model
  as distinct fids.
* The per-entry mutable state (BlueprintEntry.__tag_contexts and each For
  tag's __current_context) is an explicit state record St threaded through
  the resolver.  The context stack is kept head-is-top, so Python's
  contexts[-(depth+1)] becomes List.get? depth.
* Exceptions are an explicit error type Err; a result is Res, which keeps
  the final state also on the error path (in Python the exception
  propagates while the entry object retains its mutated stack).
* Recursion is bounded by explicit fuel; exhaustion is the distinguished
  error outOfFuel, never a wrong value.  The Python recursion is
  structural over finite trees, so every concrete run succeeds with
  enough fuel.
* External collaborators (os.getenv, the Django ORM query in Find, the
  string %-operator in Format) are parameters collected in Config.
-/

set_option maxHeartbeats 1600000

namespace AuthentikBlueprints

/-- BlueprintEntryDesiredState (common.py lines 48-53). -/
inductive DState : Type where
  | absent
  | present
  | created
deriving DecidableEq, Repr

/-- A decoded YAML value.  Scalar constructors model Python scalars; list
and dict model sequences and (insertion-ordered) mappings; dstate models a
BlueprintEntryDesiredState enum member (the dataclass default of
BlueprintEntry.state); the remaining constructors are the YAMLTag
subclasses of common.py with their constructor-bound fields. -/
inductive Val : Type where
  | null : Val
  | bool (b : Bool) : Val
  | int (n : Int) : Val
  | str (s : String) : Val
  | dstate (d : DState) : Val
  | list (xs : List Val) : Val
  | dict (xs : List (String × Val)) : Val
  | keyOf (idFrom : String) : Val
  | env (key : String) (dflt : Val) : Val
  | ctx (key : String) (dflt : Val) : Val
  | format (formatString : String) (args : List Val) : Val
  | find (modelName : String) (conds : List (Val × Val)) : Val
  | cond (mode : String) (args : List Val) : Val
  | ifT (condition whenTrue whenFalse : Val) : Val
  | forT (fid : Nat) (iterable itemBody : Val) : Val
  | forItem (depth : Int) : Val
  | forItemIndex (depth : Int) : Val
deriving Repr

/-- isinstance(value, YAMLTag). -/
def Val.isTag : Val → Bool
  | .keyOf _ | .env _ _ | .ctx _ _ | .format _ _ | .find _ _ | .cond _ _
  | .ifT _ _ _ | .forT _ _ _ | .forItem _ | .forItemIndex _ => true
  | _ => false

/-- isinstance(value, YAMLTagContext): in common.py only For implements
YAMLTagContext. -/
def Val.isTagContext : Val → Bool
  | .forT _ _ _ => true
  | _ => false

/-- Python truthiness bool(x) of a resolved value.  Objects without
__bool__ (tag objects, enum members) are truthy. -/
def truthy : Val → Bool
  | .null => false
  | .bool b => b
  | .int n => n != 0
  | .str s => !s.isEmpty
  | .list xs => !xs.isEmpty
  | .dict xs => !xs.isEmpty
  | _ => true

/-- Python str.upper on one character (ASCII, which covers the mode
strings of Condition). -/
def charUpper (c : Char) : Char :=
  if 'a' ≤ c ∧ c ≤ 'z' then Char.ofNat (c.toNat - 32) else c

/-- Python str.lower on one character (ASCII, which covers the model
names compared by KeyOf). -/
def charLower (c : Char) : Char :=
  if 'A' ≤ c ∧ c ≤ 'Z' then Char.ofNat (c.toNat + 32) else c

/-- Python str.upper. -/
def pyUpper (s : String) : String := String.mk (s.toList.map charUpper)

/-- Python str.lower. -/
def pyLower (s : String) : String := String.mk (s.toList.map charLower)

/-- Python str.endswith. -/
def pyEndsWith (s suffix : String) : Bool := suffix.toList.isSuffixOf s.toList

/-- The exceptions the module can raise.  EntryInvalidError is the
module's own error class; the others are Python builtins it lets escape
or wraps.  outOfFuel is the embedding's recursion bound, not a Python
error. -/
inductive Err : Type where
  | entryInvalid (msg : String)
  | valueError (msg : String)
  | typeError (msg : String)
  | attributeError (msg : String)
  | indexError (msg : String)
  | notImplemented
  | outOfFuel
deriving DecidableEq, Repr

/-- The mutable per-entry resolution state: stack is
BlueprintEntry.__tag_contexts (head is the most recently pushed For,
identified by fid); fctx gives each For tag's __current_context. -/
structure St where
  stack : List Nat
  fctx : Nat → Option (Nat × Val)

/-- The state of a freshly constructed entry: empty context stack, every
For tag's current context still None. -/
def St.clean : St := ⟨[], fun _ => none⟩

/-- Assign a For tag's __current_context field. -/
def St.setF (st : St) (fid : Nat) (v : Option (Nat × Val)) : St :=
  ⟨st.stack, fun g => if g = fid then v else st.fctx g⟩

/-- Outcome of a call: value or exception, in both cases together with the
final mutable state (a Python exception does not roll back the entry's
mutated stack). -/
inductive Res (α : Type) : Type where
  | ok (a : α) (st : St)
  | err (e : Err) (st : St)

def Res.state : Res α → St
  | .ok _ st => st
  | .err _ st => st

def Res.isOk : Res α → Bool
  | .ok _ _ => true
  | .err _ _ => false

def Res.val? : Res α → Option α
  | .ok a _ => some a
  | .err _ _ => none

def Res.err? : Res α → Option Err
  | .ok _ _ => none
  | .err e _ => some e

/-- The materialized Django model instance bound to an entry
(BlueprintEntry._state.instance).  pbmUuid is some u exactly when the
instance is a PolicyBindingModel, with u its pbm_uuid field. -/
structure ModelInst where
  pk : Val
  pbmUuid : Option Val
deriving Repr

/-- BlueprintEntry (the immutable data; the mutable resolution state is
St).  inst is _state.instance, set by the external reconciler. -/
structure Entry where
  model : Val
  state : Val
  conditions : List Val
  identifiers : List (String × Val)
  attrs : List (String × Val)
  id : Option String
  inst : Option ModelInst

/-- Blueprint (common.py lines 166-174). -/
structure Blueprint where
  version : Int
  entries : List Entry
  context : List (String × Val)

/-- External collaborators: os.getenv, the ORM query made by Find
(first matching pk or None), and the string %-operator used by Format
(error models a TypeError). -/
structure Config where
  env : String → Option String
  findDb : String → List (Val × Val) → Option Val
  fmt : String → List Val → Except Unit String

/-- The constant context of one resolution: external config, the entry
owning the stack (self), and the blueprint. -/
structure RCtx where
  cfg : Config
  entry : Entry
  bp : Blueprint

/-- The scan condition of KeyOf.resolve (line 205): id matches and the
instance reference is truthy (a model instance is truthy, None is not). -/
def entryMatches (idFrom : String) (e : Entry) : Bool :=
  e.id == some idFrom && e.inst.isSome

/-- KeyOf.resolve (lines 203-216).  Note the special case reads
entry.model, the raw attribute of the referencing entry: .lower() is only
defined on str, so a YAMLTag-valued model raises AttributeError there
(short-circuited behind the isinstance check on the target instance). -/
def keyOfResolve (idFrom : String) (entry : Entry) (bp : Blueprint) : Except Err Val :=
  match bp.entries.find? (entryMatches idFrom) with
  | some e =>
      match e.inst with
      | some inst =>
          match inst.pbmUuid with
          | some u =>
              match entry.model with
              | .str s =>
                  if pyLower s == "authentik_policies.policybinding" then .ok u
                  else .ok inst.pk
              | _ => .error (.attributeError "object has no attribute lower")
          | none => .ok inst.pk
      | none => .error (.entryInvalid "unreachable: find? guarantees an instance")
  | none =>
      .error (.entryInvalid
        ("KeyOf: failed to find entry with id of " ++ idFrom ++ " and a model instance"))

/-- Python dict membership plus lookup used by Context.resolve. -/
def lookupStr (m : List (String × Val)) (k : String) : Option Val :=
  List.lookup k m

/-- reduce(ixor, bs) on a nonempty tuple of booleans: left fold of xor. -/
def reduceXor : List Bool → Bool
  | [] => false
  | b :: rest => rest.foldl xor b

/-- Condition._COMPARATORS (lines 333-342), a dict keyed by mode; lookup
failure is the KeyError path. -/
def comparators (mode : String) : Option (List Bool → Bool) :=
  if mode = "AND" then some (fun bs => bs.all (fun b => b))
  else if mode = "NAND" then some (fun bs => !(bs.all (fun b => b)))
  else if mode = "OR" then some (fun bs => bs.any (fun b => b))
  else if mode = "NOR" then some (fun bs => !(bs.any (fun b => b)))
  else if mode = "XOR" then
    some (fun bs => if bs.length > 1 then reduceXor bs else bs.headD false)
  else if mode = "XNOR" then
    some (fun bs => !(if bs.length > 1 then reduceXor bs else bs.headD false))
  else none

/-- BlueprintEntry._get_tag_context (lines 92-109) specialized to
context_tag_type=For: every stack element is a For (the only
YAMLTagContext subclass), so the isinstance filter is the identity and
contexts[-(depth+1)] is get? depth of the head-is-top stack. -/
def getTagContext (st : St) (depth : Int) : Except Err Nat :=
  if depth < 0 then .error (.valueError "depth must be a positive number or zero")
  else
    match st.stack.get? depth.toNat with
    | some fid => .ok fid
    | none => .error (.valueError "invalid depth")

/-- BaseForItem.resolve (lines 409-422) up to the subscript: locate the
For context, map its ValueError to EntryInvalidError, then read the
For's current (index, item) pair; subscripting a still-None pair is the
TypeError of None[0]. -/
def baseForItemResolve (st : St) (depth : Int) (clsName : String) : Except Err (Nat × Val) :=
  match getTagContext st depth with
  | .ok fid =>
      match st.fctx fid with
      | some p => .ok p
      | none => .error (.typeError "NoneType object is not subscriptable")
  | .error (.valueError _) =>
      if depth == 0 then
        .error (.entryInvalid (clsName ++ " tags are only usable inside a For tag"))
      else
        .error (.entryInvalid ("Invalid " ++ clsName ++ " tag depth"))
  | .error e => .error e

/-- tuple(enumerate(iterable)) in For.resolve: Python iteration over the
resolved iterable (list elements, string characters, dict keys);
anything else raises TypeError. -/
def pyEnumerate : Val → Except Err (List (Nat × Val))
  | .list xs => .ok xs.enum
  | .str s => .ok ((s.toList.map (fun c => Val.str (String.mk [c]))).enum)
  | .dict xs => .ok ((xs.map (fun p => Val.str p.1)).enum)
  | _ => .error (.typeError "object is not iterable")

/-- The append guard of tag_resolver (lines 115-120): push the For unless
the current top of stack is the same object (same fid) already. -/
def pushCtx (value : Val) (st : St) : St :=
  match value with
  | .forT fid _ _ =>
      match st.stack with
      | [] => ⟨[fid], st.fctx⟩
      | top :: rest => if top = fid then st else ⟨fid :: top :: rest, st.fctx⟩
  | _ => st

/-- The pop at the end of tag_resolver (lines 132-133).  There is no
try/finally in the source: the pop runs only when control reaches line
132, so an exception skips it — on the err branch the state is returned
unchanged. -/
def popCtx (value : Val) (r : Res Val) : Res Val :=
  match value with
  | .forT _ _ _ =>
      match r with
      | .ok v st =>
          match st.stack with
          | [] => .err (.indexError "pop from empty list") st
          | _ :: rest => .ok v ⟨rest, st.fctx⟩
      | .err e st => .err e st
  | _ => r

/-- The except TypeError of If.resolve (lines 390-396): a TypeError from
resolving the chosen branch is wrapped into EntryInvalidError; everything
else propagates. -/
def wrapTypeErr : Res Val → Res Val
  | .err (.typeError m) st => .err (.entryInvalid m) st
  | r => r

mutual

/-- BlueprintEntry.tag_resolver (lines 111-135).  val = deepcopy(value)
is the identity on pure trees; the push/pop pair is pushCtx/popCtx; the
dict/list recursion is driven by the ORIGINAL value (the source tests
isinstance(value, dict) and isinstance(value, list) on value, not on the
tag-substituted val), overwriting the slots of the copy. -/
def tagResolver : Nat → RCtx → Val → St → Res Val
  | 0, _, _, st => .err .outOfFuel st
  | fuel + 1, C, value, st =>
    let st1 := pushCtx value st
    let r1 : Res Val :=
      if value.isTag then resolveDirect fuel C value st1
      else .ok value st1
    popCtx value
      (match r1 with
       | .err e st2 => .err e st2
       | .ok val st2 =>
         match value with
         | .dict xs =>
             (match resolveDictItems fuel C xs st2 with
              | .ok ys st3 => .ok (.dict ys) st3
              | .err e st3 => .err e st3)
         | .list xs =>
             (match resolveListItems fuel C xs st2 with
              | .ok ys st3 => .ok (.list ys) st3
              | .err e st3 => .err e st3)
         | _ => .ok val st2)

/-- Dispatch of value.resolve(entry, blueprint) over the YAMLTag
subclasses (each branch is that class's resolve method); non-tag values
hit the YAMLTag base class NotImplementedError and are never passed here
by the callers. -/
def resolveDirect : Nat → RCtx → Val → St → Res Val
  | 0, _, _, st => .err .outOfFuel st
  | fuel + 1, C, value, st =>
    match value with
    | .keyOf idFrom =>
        (match keyOfResolve idFrom C.entry C.bp with
         | .ok v => .ok v st
         | .error e => .err e st)
    | .env key dflt =>
        .ok ((Option.map Val.str (C.cfg.env key)).getD dflt) st
    | .ctx key dflt =>
        .ok ((lookupStr C.bp.context key).getD dflt) st
    | .format fs args =>
        (match resolveArgs fuel C args st with
         | .ok as st1 =>
             (match C.cfg.fmt fs as with
              | .ok s => .ok (.str s) st1
              | .error _ => .err (.entryInvalid "format: argument mismatch") st1)
         | .err e st1 => .err e st1)
    | .find mn conds =>
        (match resolvePairs fuel C conds st with
         | .ok cs st1 =>
             (match C.cfg.findDb mn cs with
              | some pk => .ok pk st1
              | none => .ok .null st1)
         | .err e st1 => .err e st1)
    | .cond mode args =>
        (match resolveArgs fuel C args st with
         | .ok as st1 =>
             if as.isEmpty then
               .err (.entryInvalid "At least one value is required after mode selection.") st1
             else
               (match comparators (pyUpper mode) with
                | some f => .ok (.bool (f (as.map truthy))) st1
                | none => .err (.entryInvalid "KeyError: unknown mode") st1)
         | .err e st1 => .err e st1)
    | .ifT c t e =>
        (match (if c.isTag then resolveDirect fuel C c st else .ok c st) with
         | .ok cv st1 =>
             wrapTypeErr (tagResolver fuel C (if truthy cv then t else e) st1)
         | .err e2 st1 => .err e2 st1)
    | .forT fid it body =>
        (match (if it.isTag then resolveDirect fuel C it st else .ok it st) with
         | .ok itv st1 =>
             (match pyEnumerate itv with
              | .ok items =>
                  (match forLoop fuel C fid body items (st1.setF fid none) with
                   | .ok vs st3 => .ok (.list vs) (st3.setF fid none)
                   | .err e st3 => .err e st3)
              | .error e => .err e st1)
         | .err e st1 => .err e st1)
    | .forItem d =>
        (match baseForItemResolve st d "ForItem" with
         | .ok p => .ok p.2 st
         | .error e => .err e st)
    | .forItemIndex d =>
        (match baseForItemResolve st d "ForItemIndex" with
         | .ok p => .ok (.int (Int.ofNat p.1)) st
         | .error e => .err e st)
    | _ => .err .notImplemented st

/-- The argument loop shared by Format.resolve and Condition.resolve:
each arg is resolved directly when it is a tag, used literally
otherwise. -/
def resolveArgs : Nat → RCtx → List Val → St → Res (List Val)
  | 0, _, _, st => .err .outOfFuel st
  | _ + 1, _, [], st => .ok [] st
  | fuel + 1, C, a :: rest, st =>
      match (if a.isTag then resolveDirect fuel C a st else .ok a st) with
      | .ok v st1 =>
          (match resolveArgs fuel C rest st1 with
           | .ok vs st2 => .ok (v :: vs) st2
           | .err e st2 => .err e st2)
      | .err e st1 => .err e st1

/-- The condition loop of Find.resolve: both sides of each pair resolved
directly when tags. -/
def resolvePairs : Nat → RCtx → List (Val × Val) → St → Res (List (Val × Val))
  | 0, _, _, st => .err .outOfFuel st
  | _ + 1, _, [], st => .ok [] st
  | fuel + 1, C, (k, v) :: rest, st =>
      match (if k.isTag then resolveDirect fuel C k st else .ok k st) with
      | .ok kv st1 =>
          (match (if v.isTag then resolveDirect fuel C v st1 else .ok v st1) with
           | .ok vv st2 =>
               (match resolvePairs fuel C rest st2 with
                | .ok ps st3 => .ok ((kv, vv) :: ps) st3
                | .err e st3 => .err e st3)
           | .err e st2 => .err e st2)
      | .err e st1 => .err e st1

/-- The per-key recursion of tag_resolver over a dict (lines 125-127):
each value replaced by its recursive resolution, keys kept in place. -/
def resolveDictItems : Nat → RCtx → List (String × Val) → St → Res (List (String × Val))
  | 0, _, _, st => .err .outOfFuel st
  | _ + 1, _, [], st => .ok [] st
  | fuel + 1, C, (k, x) :: rest, st =>
      match tagResolver fuel C x st with
      | .ok v st1 =>
          (match resolveDictItems fuel C rest st1 with
           | .ok ys st2 => .ok ((k, v) :: ys) st2
           | .err e st2 => .err e st2)
      | .err e st1 => .err e st1

/-- The per-index recursion of tag_resolver over a list (lines 128-130). -/
def resolveListItems : Nat → RCtx → List Val → St → Res (List Val)
  | 0, _, _, st => .err .outOfFuel st
  | _ + 1, _, [], st => .ok [] st
  | fuel + 1, C, x :: rest, st =>
      match tagResolver fuel C x st with
      | .ok v st1 =>
          (match resolveListItems fuel C rest st1 with
           | .ok ys st2 => .ok (v :: ys) st2
           | .err e st2 => .err e st2)
      | .err e st1 => .err e st1

/-- The iteration loop of For.resolve (lines 462-464): set the current
pair, resolve item_body through the full resolver, collect in order. -/
def forLoop : Nat → RCtx → Nat → Val → List (Nat × Val) → St → Res (List Val)
  | 0, _, _, _, _, st => .err .outOfFuel st
  | _ + 1, _, _, _, [], st => .ok [] st
  | fuel + 1, C, fid, body, item :: rest, st =>
      match tagResolver fuel C body (st.setF fid (some item)) with
      | .ok v st2 =>
          (match forLoop fuel C fid body rest st2 with
           | .ok vs st3 => .ok (v :: vs) st3
           | .err e st3 => .err e st3)
      | .err e st2 => .err e st2

end

/-- The BlueprintEntryDesiredState(value) enum constructor: an existing
member is returned, a value equal to a member's value selects that
member, anything else is a ValueError. -/
def dstateOf : Val → Option DState
  | .dstate d => some d
  | .str "absent" => some .absent
  | .str "present" => some .present
  | .str "created" => some .created
  | _ => none

/-- BlueprintEntry.get_state (lines 145-147): resolve the state field,
then feed it to the enum constructor; an invalid resolved value is a
plain ValueError, not an EntryInvalidError. -/
def getState (fuel : Nat) (C : RCtx) (st : St) : Res DState :=
  match tagResolver fuel C C.entry.state st with
  | .ok v st1 =>
      (match dstateOf v with
       | some d => .ok d st1
       | none => .err (.valueError "is not a valid BlueprintEntryDesiredState") st1)
  | .err e st1 => .err e st1

/-! Object identity of For tags.  fidsOf collects the fids of all For
nodes of a value; the codec disables YAML aliasing, so in a decoded
document all For objects are distinct, modelled as Nodup of this list. -/

mutual

def fidsOf : Val → List Nat
  | .forT fid it body => fid :: (fidsOf it ++ fidsOf body)
  | .ifT c t e => fidsOf c ++ (fidsOf t ++ fidsOf e)
  | .env _ d => fidsOf d
  | .ctx _ d => fidsOf d
  | .format _ args => fidsL args
  | .cond _ args => fidsL args
  | .find _ conds => fidsP conds
  | .list xs => fidsL xs
  | .dict xs => fidsD xs
  | _ => []

def fidsL : List Val → List Nat
  | [] => []
  | v :: r => fidsOf v ++ fidsL r

def fidsD : List (String × Val) → List Nat
  | [] => []
  | p :: r => fidsOf p.2 ++ fidsD r

def fidsP : List (Val × Val) → List Nat
  | [] => []
  | p :: r => fidsOf p.1 ++ (fidsOf p.2 ++ fidsP r)

end

/-- The For fids a direct resolve call can reach: for a For tag its own
fid is consumed by the caller (the stack push in tag_resolver), the
children are what resolve recurses into; for every other tag all of its
fids. -/
def fidsRest : Val → List Nat
  | .forT _ it body => fidsOf it ++ fidsOf body
  | v => fidsOf v

/-! Tag-freeness: no YAMLTag instance anywhere in the value. -/

mutual

def tagFree : Val → Bool
  | .null | .bool _ | .int _ | .str _ | .dstate _ => true
  | .list xs => tagFreeL xs
  | .dict xs => tagFreeD xs
  | _ => false

def tagFreeL : List Val → Bool
  | [] => true
  | v :: r => tagFree v && tagFreeL r

def tagFreeD : List (String × Val) → Bool
  | [] => true
  | p :: r => tagFree p.2 && tagFreeD r

end

/-! Python == on decoded values, used by get_attrs to compare a field's
declared initial value with its serialized value.  Structural on
scalars and containers, with the bool/int cross-type equality of Python
(True == 1, False == 0).  Tag objects compare by identity; two distinct
objects are unequal, so tag constructors compare false here (get_attrs
only ever compares serialized, tag-free data).  Python dict equality is
key-set based; the serialized mappings compared here have a fixed field
order, so pairwise comparison agrees. -/

mutual

def Val.beq : Val → Val → Bool
  | .null, .null => true
  | .bool a, .bool b => a == b
  | .bool a, .int n => if a then n == 1 else n == 0
  | .int n, .bool a => if a then n == 1 else n == 0
  | .int a, .int b => a == b
  | .str a, .str b => a == b
  | .dstate a, .dstate b => a == b
  | .list a, .list b => Val.beqL a b
  | .dict a, .dict b => Val.beqD a b
  | _, _ => false

def Val.beqL : List Val → List Val → Bool
  | [], [] => true
  | a :: ra, b :: rb => Val.beq a b && Val.beqL ra rb
  | _, _ => false

def Val.beqD : List (String × Val) → List (String × Val) → Bool
  | [], [] => true
  | a :: ra, b :: rb => a.1 == b.1 && Val.beq a.2 b.2 && Val.beqD ra rb
  | _, _ => false

end

/-! ## Encode-side attribute extraction (get_attrs, common.py lines 23-38)

The serializer is external (rest_framework): it is abstracted as the
ordered field list (with each field's read_only flag and get_initial()
value, None as Val.null) and the serialized data mapping. -/

/-- One serializer field: its read_only flag and its get_initial()
result. -/
structure FieldInfo where
  readOnly : Bool
  initial : Val

/-- The field-serialization contract of one live object:
serializer.fields.items() in order, and dict(serializer.data). -/
structure SerializerData where
  fields : List (String × FieldInfo)
  data : List (String × Val)

/-- data.pop(field_name, None): remove the key if present. -/
def popField (data : List (String × Val)) (k : String) : List (String × Val) :=
  data.filter (fun p => p.1 != k)

/-- One iteration of the get_attrs loop (lines 28-37): skip fields not in
data, then three independent pops — read_only, initial-equals-current
-value (data.get after the first pop), and the _set naming
convention. -/
def getAttrsStep (data : List (String × Val)) (f : String × FieldInfo) :
    List (String × Val) :=
  match List.lookup f.1 data with
  | none => data
  | some _ =>
    let d1 := if f.2.readOnly then popField data f.1 else data
    let d2 :=
      if Val.beq f.2.initial ((List.lookup f.1 d1).getD .null) then popField d1 f.1
      else d1
    if pyEndsWith f.1 "_set" then popField d2 f.1 else d2

/-- get_attrs: fold the per-field loop over the serializer's fields. -/
def getAttrs (s : SerializerData) : List (String × Val) :=
  s.fields.foldl getAttrsStep s.data

/-! ## Addressed tag-free values

A second, heap-aware rendering of tag_resolver restricted to tag-free
input, for the aliasing half of the deep-copy contract.  Mutable Python
containers (list, dict) carry an address; scalars are immutable and
unaddressed (deepcopy returns immutables unchanged, and aliasing of
immutables is unobservable).  copy.deepcopy allocates fresh containers:
modelled by an allocation counter, every node of a copy gets an address
at or above the counter's value at call time. -/

inductive AVal : Type where
  | anull : AVal
  | abool (b : Bool) : AVal
  | aint (n : Int) : AVal
  | astr (s : String) : AVal
  | alist (addr : Nat) (xs : List AVal) : AVal
  | adict (addr : Nat) (xs : List (String × AVal)) : AVal
deriving Repr

mutual

def strip : AVal → Val
  | .anull => .null
  | .abool b => .bool b
  | .aint n => .int n
  | .astr s => .str s
  | .alist _ xs => .list (stripL xs)
  | .adict _ xs => .dict (stripD xs)

def stripL : List AVal → List Val
  | [] => []
  | v :: r => strip v :: stripL r

def stripD : List (String × AVal) → List (String × Val)
  | [] => []
  | p :: r => (p.1, strip p.2) :: stripD r

end

mutual

def addrsOf : AVal → List Nat
  | .alist a xs => a :: addrsL xs
  | .adict a xs => a :: addrsD xs
  | _ => []

def addrsL : List AVal → List Nat
  | [] => []
  | v :: r => addrsOf v ++ addrsL r

def addrsD : List (String × AVal) → List Nat
  | [] => []
  | p :: r => addrsOf p.2 ++ addrsD r

end

mutual

/-- copy.deepcopy: fresh addresses for every container node, immutables
returned as-is.  The counter is the allocation bound: every new address
is at or above the incoming counter. -/
def deepcopyA : Nat → Nat → AVal → Option (AVal × Nat)
  | 0, _, _ => none
  | _ + 1, c, .anull => some (.anull, c)
  | _ + 1, c, .abool b => some (.abool b, c)
  | _ + 1, c, .aint n => some (.aint n, c)
  | _ + 1, c, .astr s => some (.astr s, c)
  | fuel + 1, c, .alist _ xs =>
      (match deepcopyLA fuel (c + 1) xs with
       | some (ys, c2) => some (.alist c ys, c2)
       | none => none)
  | fuel + 1, c, .adict _ xs =>
      (match deepcopyDA fuel (c + 1) xs with
       | some (ys, c2) => some (.adict c ys, c2)
       | none => none)

def deepcopyLA : Nat → Nat → List AVal → Option (List AVal × Nat)
  | 0, _, _ => none
  | _ + 1, c, [] => some ([], c)
  | fuel + 1, c, x :: r =>
      (match deepcopyA fuel c x with
       | some (y, c1) =>
           (match deepcopyLA fuel c1 r with
            | some (ys, c2) => some (y :: ys, c2)
            | none => none)
       | none => none)

def deepcopyDA : Nat → Nat → List (String × AVal) → Option (List (String × AVal) × Nat)
  | 0, _, _ => none
  | _ + 1, c, [] => some ([], c)
  | fuel + 1, c, p :: r =>
      (match deepcopyA fuel c p.2 with
       | some (y, c1) =>
           (match deepcopyDA fuel c1 r with
            | some (ys, c2) => some ((p.1, y) :: ys, c2)
            | none => none)
       | none => none)

end

mutual

/-- tag_resolver on tag-free input, addresses made explicit: val =
deepcopy(value), then every slot of the copy is overwritten by the
recursive resolution of the corresponding slot of the original (the
copied children are discarded); scalars are returned as the copy. -/
def tagResolverA : Nat → Nat → AVal → Option (AVal × Nat)
  | 0, _, _ => none
  | fuel + 1, c, v =>
      (match deepcopyA fuel c v with
       | none => none
       | some (cp, c1) =>
         match v, cp with
         | .alist _ xs, .alist a _ =>
             (match resolveLA fuel c1 xs with
              | some (ys, c2) => some (.alist a ys, c2)
              | none => none)
         | .adict _ xs, .adict a _ =>
             (match resolveDA fuel c1 xs with
              | some (ys, c2) => some (.adict a ys, c2)
              | none => none)
         | .alist _ _, _ => none
         | .adict _ _, _ => none
         | _, _ => some (cp, c1))

def resolveLA : Nat → Nat → List AVal → Option (List AVal × Nat)
  | 0, _, _ => none
  | _ + 1, c, [] => some ([], c)
  | fuel + 1, c, x :: r =>
      (match tagResolverA fuel c x with
       | some (y, c1) =>
           (match resolveLA fuel c1 r with
            | some (ys, c2) => some (y :: ys, c2)
            | none => none)
       | none => none)

def resolveDA : Nat → Nat → List (String × AVal) → Option (List (String × AVal) × Nat)
  | 0, _, _ => none
  | _ + 1, c, [] => some ([], c)
  | fuel + 1, c, p :: r =>
      (match tagResolverA fuel c p.2 with
       | some (y, c1) =>
           (match resolveDA fuel c1 r with
            | some (ys, c2) => some ((p.1, y) :: ys, c2)
            | none => none)
       | none => none)

end

/-! ## Basic lemmas about the state-manipulating helpers -/

theorem setF_stack (st : St) (fid : Nat) (v : Option (Nat × Val)) :
    (st.setF fid v).stack = st.stack := rfl

theorem pushCtx_nc (v : Val) (st : St) (h : v.isTagContext = false) :
    pushCtx v st = st := by
  cases v <;> simp_all [pushCtx, Val.isTagContext]

theorem pushCtx_forT (fid : Nat) (it body : Val) (st : St) (h : fid ∉ st.stack) :
    pushCtx (.forT fid it body) st = ⟨fid :: st.stack, st.fctx⟩ := by
  obtain ⟨stack, fctx⟩ := st
  cases stack with
  | nil => rfl
  | cons top rest =>
      have hne : top ≠ fid := by
        intro hh
        exact h (by rw [← hh]; exact List.mem_cons_self _ _)
      simp [pushCtx, hne]

theorem popCtx_nc (v : Val) (r : Res Val) (h : v.isTagContext = false) :
    popCtx v r = r := by
  cases v <;> simp_all [popCtx, Val.isTagContext]

theorem wrapTypeErr_ok {r : Res Val} {w : Val} {st' : St}
    (h : wrapTypeErr r = .ok w st') : r = .ok w st' := by
  match r with
  | .ok a st => exact h
  | .err e st => cases e <;> (simp [wrapTypeErr] at h)

theorem fidsRest_subset (v : Val) : ∀ g ∈ fidsRest v, g ∈ fidsOf v := by
  cases v <;> simp [fidsRest, fidsOf, List.mem_cons, List.mem_append] <;> tauto

/-! ## Stack preservation

On every successful call the context stack is left exactly as found,
provided the For objects inside the value are pairwise distinct (the
codec's no-aliasing guarantee) and none of them is already on the stack.
Without the second proviso the dedup guard of lines 115-120 skips the
push while line 133 still pops, so the property genuinely needs it. -/

theorem stackInv : ∀ fuel : Nat,
    (∀ C v st w st', tagResolver fuel C v st = .ok w st' → (fidsOf v).Nodup →
        (∀ g ∈ fidsOf v, g ∉ st.stack) → st'.stack = st.stack) ∧
    (∀ C v st w st', resolveDirect fuel C v st = .ok w st' → (fidsOf v).Nodup →
        (∀ g ∈ fidsRest v, g ∉ st.stack) → st'.stack = st.stack) ∧
    (∀ C xs st ys st', resolveArgs fuel C xs st = .ok ys st' → (fidsL xs).Nodup →
        (∀ g ∈ fidsL xs, g ∉ st.stack) → st'.stack = st.stack) ∧
    (∀ C ps st qs st', resolvePairs fuel C ps st = .ok qs st' → (fidsP ps).Nodup →
        (∀ g ∈ fidsP ps, g ∉ st.stack) → st'.stack = st.stack) ∧
    (∀ C xs st ys st', resolveDictItems fuel C xs st = .ok ys st' → (fidsD xs).Nodup →
        (∀ g ∈ fidsD xs, g ∉ st.stack) → st'.stack = st.stack) ∧
    (∀ C xs st ys st', resolveListItems fuel C xs st = .ok ys st' → (fidsL xs).Nodup →
        (∀ g ∈ fidsL xs, g ∉ st.stack) → st'.stack = st.stack) ∧
    (∀ C fid body items st ys st', forLoop fuel C fid body items st = .ok ys st' →
        (fidsOf body).Nodup → (∀ g ∈ fidsOf body, g ∉ st.stack) → st'.stack = st.stack) := by
  intro fuel
  induction fuel with
  | zero =>
      refine ⟨?_, ?_, ?_, ?_, ?_, ?_, ?_⟩
      · intro C v st w st' h; exact Res.noConfusion h
      · intro C v st w st' h; exact Res.noConfusion h
      · intro C xs st ys st' h; exact Res.noConfusion h
      · intro C ps st qs st' h; exact Res.noConfusion h
      · intro C xs st ys st' h; exact Res.noConfusion h
      · intro C xs st ys st' h; exact Res.noConfusion h
      · intro C fid body items st ys st' h; exact Res.noConfusion h
  | succ f ih =>
      obtain ⟨ihR, ihD, ihA, ihP, ihDI, ihLI, ihF⟩ := ih
      have hA : ∀ C xs st ys st', resolveArgs (f + 1) C xs st = .ok ys st' →
          (fidsL xs).Nodup → (∀ g ∈ fidsL xs, g ∉ st.stack) → st'.stack = st.stack := by
        intro C xs st ys st' h hnd hdis
        cases xs with
        | nil =>
            simp only [resolveArgs] at h
            injection h with h1 h2
            rw [h2]
        | cons a rest =>
            simp only [fidsL] at hnd hdis
            simp only [resolveArgs] at h
            split at h
            · rename_i v st1 heq
              have hst1 : st1.stack = st.stack := by
                by_cases ht : a.isTag = true
                · rw [if_pos ht] at heq
                  exact ihD C a st v st1 heq hnd.of_append_left
                    (fun g hg => hdis g (List.mem_append_left _ (fidsRest_subset a g hg)))
                · rw [if_neg ht] at heq
                  injection heq with hv hst
                  rw [hst]
              split at h
              · rename_i vs st2 heq2
                injection h with h1 h2
                rw [← h2]
                have h3 := ihA C rest st1 vs st2 heq2 hnd.of_append_right
                  (fun g hg => by rw [hst1]; exact hdis g (List.mem_append_right _ hg))
                rw [h3, hst1]
              · exact Res.noConfusion h
            · exact Res.noConfusion h
      have hP : ∀ C ps st qs st', resolvePairs (f + 1) C ps st = .ok qs st' →
          (fidsP ps).Nodup → (∀ g ∈ fidsP ps, g ∉ st.stack) → st'.stack = st.stack := by
        intro C ps st qs st' h hnd hdis
        cases ps with
        | nil =>
            simp only [resolvePairs] at h
            injection h with h1 h2
            rw [h2]
        | cons p rest =>
            obtain ⟨k, v⟩ := p
            simp only [fidsP] at hnd hdis
            simp only [resolvePairs] at h
            split at h
            · rename_i kv st1 heq
              have hst1 : st1.stack = st.stack := by
                by_cases ht : k.isTag = true
                · rw [if_pos ht] at heq
                  exact ihD C k st kv st1 heq hnd.of_append_left
                    (fun g hg => hdis g (List.mem_append_left _ (fidsRest_subset k g hg)))
                · rw [if_neg ht] at heq
                  injection heq with hv hst
                  rw [hst]
              split at h
              · rename_i vv st2 heq2
                have hst2 : st2.stack = st1.stack := by
                  by_cases ht : v.isTag = true
                  · rw [if_pos ht] at heq2
                    exact ihD C v st1 vv st2 heq2 hnd.of_append_right.of_append_left
                      (fun g hg => by
                        rw [hst1]
                        exact hdis g (List.mem_append_right _
                          (List.mem_append_left _ (fidsRest_subset v g hg))))
                  · rw [if_neg ht] at heq2
                    injection heq2 with hv hst
                    rw [hst]
                split at h
                · rename_i ps2 st3 heq3
                  injection h with h1 h2
                  rw [← h2]
                  have h3 := ihP C rest st2 ps2 st3 heq3 hnd.of_append_right.of_append_right
                    (fun g hg => by
                      rw [hst2, hst1]
                      exact hdis g (List.mem_append_right _ (List.mem_append_right _ hg)))
                  rw [h3, hst2, hst1]
                · exact Res.noConfusion h
              · exact Res.noConfusion h
            · exact Res.noConfusion h
      have hDI : ∀ C xs st ys st', resolveDictItems (f + 1) C xs st = .ok ys st' →
          (fidsD xs).Nodup → (∀ g ∈ fidsD xs, g ∉ st.stack) → st'.stack = st.stack := by
        intro C xs st ys st' h hnd hdis
        cases xs with
        | nil =>
            simp only [resolveDictItems] at h
            injection h with h1 h2
            rw [h2]
        | cons p rest =>
            simp only [fidsD] at hnd hdis
            simp only [resolveDictItems] at h
            split at h
            · rename_i v st1 heq
              have hst1 : st1.stack = st.stack :=
                ihR C p.2 st v st1 heq hnd.of_append_left
                  (fun g hg => hdis g (List.mem_append_left _ hg))
              split at h
              · rename_i ys2 st2 heq2
                injection h with h1 h2
                rw [← h2]
                have h3 := ihDI C rest st1 ys2 st2 heq2 hnd.of_append_right
                  (fun g hg => by rw [hst1]; exact hdis g (List.mem_append_right _ hg))
                rw [h3, hst1]
              · exact Res.noConfusion h
            · exact Res.noConfusion h
      have hLI : ∀ C xs st ys st', resolveListItems (f + 1) C xs st = .ok ys st' →
          (fidsL xs).Nodup → (∀ g ∈ fidsL xs, g ∉ st.stack) → st'.stack = st.stack := by
        intro C xs st ys st' h hnd hdis
        cases xs with
        | nil =>
            simp only [resolveListItems] at h
            injection h with h1 h2
            rw [h2]
        | cons a rest =>
            simp only [fidsL] at hnd hdis
            simp only [resolveListItems] at h
            split at h
            · rename_i v st1 heq
              have hst1 : st1.stack = st.stack :=
                ihR C a st v st1 heq hnd.of_append_left
                  (fun g hg => hdis g (List.mem_append_left _ hg))
              split at h
              · rename_i ys2 st2 heq2
                injection h with h1 h2
                rw [← h2]
                have h3 := ihLI C rest st1 ys2 st2 heq2 hnd.of_append_right
                  (fun g hg => by rw [hst1]; exact hdis g (List.mem_append_right _ hg))
                rw [h3, hst1]
              · exact Res.noConfusion h
            · exact Res.noConfusion h
      have hF : ∀ C fid body items st ys st', forLoop (f + 1) C fid body items st = .ok ys st' →
          (fidsOf body).Nodup → (∀ g ∈ fidsOf body, g ∉ st.stack) → st'.stack = st.stack := by
        intro C fid body items st ys st' h hnd hdis
        cases items with
        | nil =>
            simp only [forLoop] at h
            injection h with h1 h2
            rw [h2]
        | cons item rest =>
            simp only [forLoop] at h
            split at h
            · rename_i v st2 heq
              have hst2 : st2.stack = st.stack := by
                have := ihR C body (st.setF fid (some item)) v st2 heq hnd
                  (fun g hg => by rw [setF_stack]; exact hdis g hg)
                rw [this, setF_stack]
              split at h
              · rename_i vs st3 heq2
                injection h with h1 h2
                rw [← h2]
                have h3 := ihF C fid body rest st2 vs st3 heq2 hnd
                  (fun g hg => by rw [hst2]; exact hdis g hg)
                rw [h3, hst2]
              · exact Res.noConfusion h
            · exact Res.noConfusion h
      have hD : ∀ C v st w st', resolveDirect (f + 1) C v st = .ok w st' →
          (fidsOf v).Nodup → (∀ g ∈ fidsRest v, g ∉ st.stack) → st'.stack = st.stack := by
        intro C v st w st' h hnd hdis
        cases v with
        | null => simp only [resolveDirect] at h; exact Res.noConfusion h
        | bool b => simp only [resolveDirect] at h; exact Res.noConfusion h
        | int n => simp only [resolveDirect] at h; exact Res.noConfusion h
        | str s => simp only [resolveDirect] at h; exact Res.noConfusion h
        | dstate d => simp only [resolveDirect] at h; exact Res.noConfusion h
        | list xs => simp only [resolveDirect] at h; exact Res.noConfusion h
        | dict xs => simp only [resolveDirect] at h; exact Res.noConfusion h
        | keyOf idFrom =>
            simp only [resolveDirect] at h
            split at h
            · injection h with h1 h2; rw [h2]
            · exact Res.noConfusion h
        | env key dflt =>
            simp only [resolveDirect] at h
            injection h with h1 h2; rw [h2]
        | ctx key dflt =>
            simp only [resolveDirect] at h
            injection h with h1 h2; rw [h2]
        | format fs args =>
            simp only [fidsOf] at hnd
            simp only [fidsRest, fidsOf] at hdis
            simp only [resolveDirect] at h
            split at h
            · rename_i as st1 heq
              have hst1 : st1.stack = st.stack := ihA C args st as st1 heq hnd hdis
              split at h
              · injection h with h1 h2; rw [← h2, hst1]
              · exact Res.noConfusion h
            · exact Res.noConfusion h
        | find mn conds =>
            simp only [fidsOf] at hnd
            simp only [fidsRest, fidsOf] at hdis
            simp only [resolveDirect] at h
            split at h
            · rename_i cs st1 heq
              have hst1 : st1.stack = st.stack := ihP C conds st cs st1 heq hnd hdis
              split at h
              · injection h with h1 h2; rw [← h2, hst1]
              · injection h with h1 h2; rw [← h2, hst1]
            · exact Res.noConfusion h
        | cond mode args =>
            simp only [fidsOf] at hnd
            simp only [fidsRest, fidsOf] at hdis
            simp only [resolveDirect] at h
            split at h
            · rename_i as st1 heq
              have hst1 : st1.stack = st.stack := ihA C args st as st1 heq hnd hdis
              split at h
              · exact Res.noConfusion h
              · split at h
                · injection h with h1 h2; rw [← h2, hst1]
                · exact Res.noConfusion h
            · exact Res.noConfusion h
        | ifT c t e =>
            simp only [fidsOf] at hnd
            simp only [fidsRest, fidsOf] at hdis
            simp only [resolveDirect] at h
            split at h
            · rename_i cv st1 heq
              have hst1 : st1.stack = st.stack := by
                by_cases ht : c.isTag = true
                · rw [if_pos ht] at heq
                  exact ihD C c st cv st1 heq hnd.of_append_left
                    (fun g hg => hdis g (List.mem_append_left _ (fidsRest_subset c g hg)))
                · rw [if_neg ht] at heq
                  injection heq with hv hst
                  rw [hst]
              have hT := wrapTypeErr_ok h
              by_cases hb : truthy cv = true
              · rw [if_pos hb] at hT
                have h3 := ihR C t st1 w st' hT hnd.of_append_right.of_append_left
                  (fun g hg => by
                    rw [hst1]
                    exact hdis g (List.mem_append_right _ (List.mem_append_left _ hg)))
                rw [h3, hst1]
              · rw [if_neg hb] at hT
                have h3 := ihR C e st1 w st' hT hnd.of_append_right.of_append_right
                  (fun g hg => by
                    rw [hst1]
                    exact hdis g (List.mem_append_right _ (List.mem_append_right _ hg)))
                rw [h3, hst1]
            · exact Res.noConfusion h
        | forT fid it body =>
            simp only [fidsOf] at hnd
            simp only [fidsRest] at hdis
            have hnd2 : (fidsOf it ++ fidsOf body).Nodup := (List.nodup_cons.mp hnd).2
            simp only [resolveDirect] at h
            split at h
            · rename_i itv st1 heq
              have hst1 : st1.stack = st.stack := by
                by_cases ht : it.isTag = true
                · rw [if_pos ht] at heq
                  exact ihD C it st itv st1 heq hnd2.of_append_left
                    (fun g hg => hdis g (List.mem_append_left _ (fidsRest_subset it g hg)))
                · rw [if_neg ht] at heq
                  injection heq with hv hst
                  rw [hst]
              split at h
              · rename_i items heq2
                split at h
                · rename_i vs st3 heq3
                  injection h with h1 h2
                  have h4 := ihF C fid body items (st1.setF fid none) vs st3 heq3
                    hnd2.of_append_right
                    (fun g hg => by
                      rw [setF_stack, hst1]
                      exact hdis g (List.mem_append_right _ hg))
                  rw [← h2, setF_stack, h4, setF_stack, hst1]
                · exact Res.noConfusion h
              · exact Res.noConfusion h
            · exact Res.noConfusion h
        | forItem d =>
            simp only [resolveDirect] at h
            split at h
            · injection h with h1 h2; rw [h2]
            · exact Res.noConfusion h
        | forItemIndex d =>
            simp only [resolveDirect] at h
            split at h
            · injection h with h1 h2; rw [h2]
            · exact Res.noConfusion h
      have hR : ∀ C v st w st', tagResolver (f + 1) C v st = .ok w st' →
          (fidsOf v).Nodup → (∀ g ∈ fidsOf v, g ∉ st.stack) → st'.stack = st.stack := by
        intro C v st w st' h hnd hdis
        cases v with
        | null =>
            simp [tagResolver, pushCtx, popCtx, Val.isTag] at h
            rw [← h.2]
        | bool b =>
            simp [tagResolver, pushCtx, popCtx, Val.isTag] at h
            rw [← h.2]
        | int n =>
            simp [tagResolver, pushCtx, popCtx, Val.isTag] at h
            rw [← h.2]
        | str s =>
            simp [tagResolver, pushCtx, popCtx, Val.isTag] at h
            rw [← h.2]
        | dstate d =>
            simp [tagResolver, pushCtx, popCtx, Val.isTag] at h
            rw [← h.2]
        | dict xs =>
            simp only [fidsOf] at hnd hdis
            simp [tagResolver, pushCtx, popCtx, Val.isTag] at h
            split at h
            · rename_i ys st3 heq
              injection h with h1 h2
              rw [← h2]
              exact ihDI C xs st ys st3 heq hnd hdis
            · exact Res.noConfusion h
        | list xs =>
            simp only [fidsOf] at hnd hdis
            simp [tagResolver, pushCtx, popCtx, Val.isTag] at h
            split at h
            · rename_i ys st3 heq
              injection h with h1 h2
              rw [← h2]
              exact ihLI C xs st ys st3 heq hnd hdis
            · exact Res.noConfusion h
        | keyOf idFrom =>
            simp [tagResolver, pushCtx, popCtx, Val.isTag] at h
            split at h
            · exact Res.noConfusion h
            · rename_i val st2 heq
              injection h with h1 h2
              rw [← h2]
              exact ihD C _ st val st2 heq hnd (fun g hg => hdis g (fidsRest_subset _ g hg))
        | env key dflt =>
            simp [tagResolver, pushCtx, popCtx, Val.isTag] at h
            split at h
            · exact Res.noConfusion h
            · rename_i val st2 heq
              injection h with h1 h2
              rw [← h2]
              exact ihD C _ st val st2 heq hnd (fun g hg => hdis g (fidsRest_subset _ g hg))
        | ctx key dflt =>
            simp [tagResolver, pushCtx, popCtx, Val.isTag] at h
            split at h
            · exact Res.noConfusion h
            · rename_i val st2 heq
              injection h with h1 h2
              rw [← h2]
              exact ihD C _ st val st2 heq hnd (fun g hg => hdis g (fidsRest_subset _ g hg))
        | format fs args =>
            simp [tagResolver, pushCtx, popCtx, Val.isTag] at h
            split at h
            · exact Res.noConfusion h
            · rename_i val st2 heq
              injection h with h1 h2
              rw [← h2]
              exact ihD C _ st val st2 heq hnd (fun g hg => hdis g (fidsRest_subset _ g hg))
        | find mn conds =>
            simp [tagResolver, pushCtx, popCtx, Val.isTag] at h
            split at h
            · exact Res.noConfusion h
            · rename_i val st2 heq
              injection h with h1 h2
              rw [← h2]
              exact ihD C _ st val st2 heq hnd (fun g hg => hdis g (fidsRest_subset _ g hg))
        | cond mode args =>
            simp [tagResolver, pushCtx, popCtx, Val.isTag] at h
            split at h
            · exact Res.noConfusion h
            · rename_i val st2 heq
              injection h with h1 h2
              rw [← h2]
              exact ihD C _ st val st2 heq hnd (fun g hg => hdis g (fidsRest_subset _ g hg))
        | ifT c t e =>
            simp [tagResolver, pushCtx, popCtx, Val.isTag] at h
            split at h
            · exact Res.noConfusion h
            · rename_i val st2 heq
              injection h with h1 h2
              rw [← h2]
              exact ihD C _ st val st2 heq hnd (fun g hg => hdis g (fidsRest_subset _ g hg))
        | forItem d =>
            simp [tagResolver, pushCtx, popCtx, Val.isTag] at h
            split at h
            · exact Res.noConfusion h
            · rename_i val st2 heq
              injection h with h1 h2
              rw [← h2]
              exact ihD C _ st val st2 heq hnd (fun g hg => hdis g (fidsRest_subset _ g hg))
        | forItemIndex d =>
            simp [tagResolver, pushCtx, popCtx, Val.isTag] at h
            split at h
            · exact Res.noConfusion h
            · rename_i val st2 heq
              injection h with h1 h2
              rw [← h2]
              exact ihD C _ st val st2 heq hnd (fun g hg => hdis g (fidsRest_subset _ g hg))
        | forT fid it body =>
            simp only [fidsOf] at hnd hdis
            have hfid : fid ∉ st.stack := hdis fid (List.mem_cons_self _ _)
            simp only [tagResolver] at h
            rw [pushCtx_forT fid it body st hfid] at h
            rw [if_pos (show Val.isTag (.forT fid it body) = true from rfl)] at h
            cases hd : resolveDirect f C (.forT fid it body) ⟨fid :: st.stack, st.fctx⟩ with
            | err e st2 =>
                rw [hd] at h
                exact Res.noConfusion h
            | ok val st2 =>
                rw [hd] at h
                have hst2 : st2.stack = fid :: st.stack := by
                  refine ihD C (.forT fid it body) ⟨fid :: st.stack, st.fctx⟩ val st2 hd hnd ?_
                  intro g hg
                  simp only [fidsRest] at hg
                  intro hmem
                  rcases List.mem_cons.mp hmem with hgf | hgs
                  · exact (List.nodup_cons.mp hnd).1 (hgf ▸ hg)
                  · exact hdis g (List.mem_cons_of_mem _ hg) hgs
                simp only [popCtx] at h
                rw [hst2] at h
                injection h with h1 h2
                rw [← h2]
      exact ⟨hR, hD, hA, hP, hDI, hLI, hF⟩

/-! ## Current-context preservation

On every successful call each For's current pair is either untouched or
cleared to None: every For.resolve that completes ends by clearing its
own pair (line 466), and nothing else writes one.  No distinctness
hypotheses are needed. -/

/-- Each fctx entry of st' is the corresponding entry of st, or cleared. -/
def FInv (st st' : St) : Prop :=
  ∀ g, st'.fctx g = st.fctx g ∨ st'.fctx g = none

/-- FInv away from one fid (the loop of For.resolve leaves its own fid
set between iterations). -/
def FInvX (fid : Nat) (st st' : St) : Prop :=
  ∀ g, g ≠ fid → (st'.fctx g = st.fctx g ∨ st'.fctx g = none)

theorem FInv_refl (st : St) : FInv st st := fun _ => Or.inl rfl

theorem FInv_trans {a b c : St} (h1 : FInv a b) (h2 : FInv b c) : FInv a c := by
  intro g
  rcases h2 g with h | h
  · rcases h1 g with h' | h'
    · exact Or.inl (h.trans h')
    · exact Or.inr (h.trans h')
  · exact Or.inr h

theorem setF_fctx (st : St) (fid : Nat) (v : Option (Nat × Val)) (g : Nat) :
    (st.setF fid v).fctx g = if g = fid then v else st.fctx g := rfl

theorem FInv_setF_none (st : St) (fid : Nat) : FInv st (st.setF fid none) := by
  intro g
  by_cases hg : g = fid
  · right; simp [setF_fctx, hg]
  · left; simp [setF_fctx, hg]

theorem FInv_of_eq {a b : St} (h : a = b) : FInv a b := h ▸ FInv_refl a

theorem fctxInv : ∀ fuel : Nat,
    (∀ C v st w st', tagResolver fuel C v st = .ok w st' → FInv st st') ∧
    (∀ C v st w st', resolveDirect fuel C v st = .ok w st' → FInv st st') ∧
    (∀ C xs st ys st', resolveArgs fuel C xs st = .ok ys st' → FInv st st') ∧
    (∀ C ps st qs st', resolvePairs fuel C ps st = .ok qs st' → FInv st st') ∧
    (∀ C xs st ys st', resolveDictItems fuel C xs st = .ok ys st' → FInv st st') ∧
    (∀ C xs st ys st', resolveListItems fuel C xs st = .ok ys st' → FInv st st') ∧
    (∀ C fid body items st ys st', forLoop fuel C fid body items st = .ok ys st' →
        FInvX fid st st') := by
  intro fuel
  induction fuel with
  | zero =>
      refine ⟨?_, ?_, ?_, ?_, ?_, ?_, ?_⟩
      · intro C v st w st' h; exact Res.noConfusion h
      · intro C v st w st' h; exact Res.noConfusion h
      · intro C xs st ys st' h; exact Res.noConfusion h
      · intro C ps st qs st' h; exact Res.noConfusion h
      · intro C xs st ys st' h; exact Res.noConfusion h
      · intro C xs st ys st' h; exact Res.noConfusion h
      · intro C fid body items st ys st' h; exact Res.noConfusion h
  | succ f ih =>
      obtain ⟨ihR, ihD, ihA, ihP, ihDI, ihLI, ihF⟩ := ih
      have hA : ∀ C xs st ys st', resolveArgs (f + 1) C xs st = .ok ys st' →
          FInv st st' := by
        intro C xs st ys st' h
        cases xs with
        | nil =>
            simp only [resolveArgs] at h
            injection h with h1 h2
            exact FInv_of_eq h2
        | cons a rest =>
            simp only [resolveArgs] at h
            split at h
            · rename_i v st1 heq
              have hi1 : FInv st st1 := by
                by_cases ht : a.isTag = true
                · rw [if_pos ht] at heq
                  exact ihD C a st v st1 heq
                · rw [if_neg ht] at heq
                  injection heq with hv hst
                  exact FInv_of_eq hst
              split at h
              · rename_i vs st2 heq2
                injection h with h1 h2
                exact h2 ▸ FInv_trans hi1 (ihA C rest st1 vs st2 heq2)
              · exact Res.noConfusion h
            · exact Res.noConfusion h
      have hP : ∀ C ps st qs st', resolvePairs (f + 1) C ps st = .ok qs st' →
          FInv st st' := by
        intro C ps st qs st' h
        cases ps with
        | nil =>
            simp only [resolvePairs] at h
            injection h with h1 h2
            exact FInv_of_eq h2
        | cons p rest =>
            obtain ⟨k, v⟩ := p
            simp only [resolvePairs] at h
            split at h
            · rename_i kv st1 heq
              have hi1 : FInv st st1 := by
                by_cases ht : k.isTag = true
                · rw [if_pos ht] at heq
                  exact ihD C k st kv st1 heq
                · rw [if_neg ht] at heq
                  injection heq with hv hst
                  exact FInv_of_eq hst
              split at h
              · rename_i vv st2 heq2
                have hi2 : FInv st1 st2 := by
                  by_cases ht : v.isTag = true
                  · rw [if_pos ht] at heq2
                    exact ihD C v st1 vv st2 heq2
                  · rw [if_neg ht] at heq2
                    injection heq2 with hv hst
                    exact FInv_of_eq hst
                split at h
                · rename_i ps2 st3 heq3
                  injection h with h1 h2
                  exact h2 ▸ FInv_trans (FInv_trans hi1 hi2) (ihP C rest st2 ps2 st3 heq3)
                · exact Res.noConfusion h
              · exact Res.noConfusion h
            · exact Res.noConfusion h
      have hDI : ∀ C xs st ys st', resolveDictItems (f + 1) C xs st = .ok ys st' →
          FInv st st' := by
        intro C xs st ys st' h
        cases xs with
        | nil =>
            simp only [resolveDictItems] at h
            injection h with h1 h2
            exact FInv_of_eq h2
        | cons p rest =>
            simp only [resolveDictItems] at h
            split at h
            · rename_i v st1 heq
              split at h
              · rename_i ys2 st2 heq2
                injection h with h1 h2
                exact h2 ▸ FInv_trans (ihR C p.2 st v st1 heq) (ihDI C rest st1 ys2 st2 heq2)
              · exact Res.noConfusion h
            · exact Res.noConfusion h
      have hLI : ∀ C xs st ys st', resolveListItems (f + 1) C xs st = .ok ys st' →
          FInv st st' := by
        intro C xs st ys st' h
        cases xs with
        | nil =>
            simp only [resolveListItems] at h
            injection h with h1 h2
            exact FInv_of_eq h2
        | cons a rest =>
            simp only [resolveListItems] at h
            split at h
            · rename_i v st1 heq
              split at h
              · rename_i ys2 st2 heq2
                injection h with h1 h2
                exact h2 ▸ FInv_trans (ihR C a st v st1 heq) (ihLI C rest st1 ys2 st2 heq2)
              · exact Res.noConfusion h
            · exact Res.noConfusion h
      have hF : ∀ C fid body items st ys st', forLoop (f + 1) C fid body items st = .ok ys st' →
          FInvX fid st st' := by
        intro C fid body items st ys st' h
        cases items with
        | nil =>
            simp only [forLoop] at h
            injection h with h1 h2
            intro g _
            exact h2 ▸ Or.inl rfl
        | cons item rest =>
            simp only [forLoop] at h
            split at h
            · rename_i v st2 heq
              split at h
              · rename_i vs st3 heq2
                injection h with h1 h2
                refine h2 ▸ ?_
                intro g hg
                have h4 := ihF C fid body rest st2 vs st3 heq2 g hg
                have h5 := ihR C body (st.setF fid (some item)) v st2 heq g
                rcases h4 with h4 | h4
                · rcases h5 with h5 | h5
                  · rw [setF_fctx] at h5
                    rw [if_neg hg] at h5
                    exact Or.inl (h4.trans h5)
                  · exact Or.inr (h4.trans h5)
                · exact Or.inr h4
              · exact Res.noConfusion h
            · exact Res.noConfusion h
      have hD : ∀ C v st w st', resolveDirect (f + 1) C v st = .ok w st' →
          FInv st st' := by
        intro C v st w st' h
        cases v with
        | null => simp only [resolveDirect] at h; exact Res.noConfusion h
        | bool b => simp only [resolveDirect] at h; exact Res.noConfusion h
        | int n => simp only [resolveDirect] at h; exact Res.noConfusion h
        | str s => simp only [resolveDirect] at h; exact Res.noConfusion h
        | dstate d => simp only [resolveDirect] at h; exact Res.noConfusion h
        | list xs => simp only [resolveDirect] at h; exact Res.noConfusion h
        | dict xs => simp only [resolveDirect] at h; exact Res.noConfusion h
        | keyOf idFrom =>
            simp only [resolveDirect] at h
            split at h
            · injection h with h1 h2; exact FInv_of_eq h2
            · exact Res.noConfusion h
        | env key dflt =>
            simp only [resolveDirect] at h
            injection h with h1 h2; exact FInv_of_eq h2
        | ctx key dflt =>
            simp only [resolveDirect] at h
            injection h with h1 h2; exact FInv_of_eq h2
        | format fs args =>
            simp only [resolveDirect] at h
            split at h
            · rename_i as st1 heq
              split at h
              · injection h with h1 h2; exact h2 ▸ ihA C args st as st1 heq
              · exact Res.noConfusion h
            · exact Res.noConfusion h
        | find mn conds =>
            simp only [resolveDirect] at h
            split at h
            · rename_i cs st1 heq
              split at h
              · injection h with h1 h2; exact h2 ▸ ihP C conds st cs st1 heq
              · injection h with h1 h2; exact h2 ▸ ihP C conds st cs st1 heq
            · exact Res.noConfusion h
        | cond mode args =>
            simp only [resolveDirect] at h
            split at h
            · rename_i as st1 heq
              split at h
              · exact Res.noConfusion h
              · split at h
                · injection h with h1 h2; exact h2 ▸ ihA C args st as st1 heq
                · exact Res.noConfusion h
            · exact Res.noConfusion h
        | ifT c t e =>
            simp only [resolveDirect] at h
            split at h
            · rename_i cv st1 heq
              have hi1 : FInv st st1 := by
                by_cases ht : c.isTag = true
                · rw [if_pos ht] at heq
                  exact ihD C c st cv st1 heq
                · rw [if_neg ht] at heq
                  injection heq with hv hst
                  exact FInv_of_eq hst
              have hT := wrapTypeErr_ok h
              exact FInv_trans hi1 (ihR C _ st1 w st' hT)
            · exact Res.noConfusion h
        | forT fid it body =>
            simp only [resolveDirect] at h
            split at h
            · rename_i itv st1 heq
              have hi1 : FInv st st1 := by
                by_cases ht : it.isTag = true
                · rw [if_pos ht] at heq
                  exact ihD C it st itv st1 heq
                · rw [if_neg ht] at heq
                  injection heq with hv hst
                  exact FInv_of_eq hst
              split at h
              · rename_i items heq2
                split at h
                · rename_i vs st3 heq3
                  injection h with h1 h2
                  subst h2
                  intro g
                  by_cases hg : g = fid
                  · right
                    rw [setF_fctx, if_pos hg]
                  · have h4 := ihF C fid body items (st1.setF fid none) vs st3 heq3 g hg
                    rw [setF_fctx, if_neg hg]
                    rcases h4 with h4 | h4
                    · rw [setF_fctx, if_neg hg] at h4
                      rcases hi1 g with h5 | h5
                      · exact Or.inl (h4.trans h5)
                      · exact Or.inr (h4.trans h5)
                    · exact Or.inr h4
                · exact Res.noConfusion h
              · exact Res.noConfusion h
            · exact Res.noConfusion h
        | forItem d =>
            simp only [resolveDirect] at h
            split at h
            · injection h with h1 h2; exact FInv_of_eq h2
            · exact Res.noConfusion h
        | forItemIndex d =>
            simp only [resolveDirect] at h
            split at h
            · injection h with h1 h2; exact FInv_of_eq h2
            · exact Res.noConfusion h
      have hR : ∀ C v st w st', tagResolver (f + 1) C v st = .ok w st' →
          FInv st st' := by
        intro C v st w st' h
        cases v with
        | null =>
            simp [tagResolver, pushCtx, popCtx, Val.isTag] at h
            exact FInv_of_eq h.2
        | bool b =>
            simp [tagResolver, pushCtx, popCtx, Val.isTag] at h
            exact FInv_of_eq h.2
        | int n =>
            simp [tagResolver, pushCtx, popCtx, Val.isTag] at h
            exact FInv_of_eq h.2
        | str s =>
            simp [tagResolver, pushCtx, popCtx, Val.isTag] at h
            exact FInv_of_eq h.2
        | dstate d =>
            simp [tagResolver, pushCtx, popCtx, Val.isTag] at h
            exact FInv_of_eq h.2
        | dict xs =>
            simp [tagResolver, pushCtx, popCtx, Val.isTag] at h
            split at h
            · rename_i ys st3 heq
              injection h with h1 h2
              exact h2 ▸ ihDI C xs st ys st3 heq
            · exact Res.noConfusion h
        | list xs =>
            simp [tagResolver, pushCtx, popCtx, Val.isTag] at h
            split at h
            · rename_i ys st3 heq
              injection h with h1 h2
              exact h2 ▸ ihLI C xs st ys st3 heq
            · exact Res.noConfusion h
        | keyOf idFrom =>
            simp [tagResolver, pushCtx, popCtx, Val.isTag] at h
            split at h
            · exact Res.noConfusion h
            · rename_i val st2 heq
              injection h with h1 h2
              exact h2 ▸ ihD C _ st val st2 heq
        | env key dflt =>
            simp [tagResolver, pushCtx, popCtx, Val.isTag] at h
            split at h
            · exact Res.noConfusion h
            · rename_i val st2 heq
              injection h with h1 h2
              exact h2 ▸ ihD C _ st val st2 heq
        | ctx key dflt =>
            simp [tagResolver, pushCtx, popCtx, Val.isTag] at h
            split at h
            · exact Res.noConfusion h
            · rename_i val st2 heq
              injection h with h1 h2
              exact h2 ▸ ihD C _ st val st2 heq
        | format fs args =>
            simp [tagResolver, pushCtx, popCtx, Val.isTag] at h
            split at h
            · exact Res.noConfusion h
            · rename_i val st2 heq
              injection h with h1 h2
              exact h2 ▸ ihD C _ st val st2 heq
        | find mn conds =>
            simp [tagResolver, pushCtx, popCtx, Val.isTag] at h
            split at h
            · exact Res.noConfusion h
            · rename_i val st2 heq
              injection h with h1 h2
              exact h2 ▸ ihD C _ st val st2 heq
        | cond mode args =>
            simp [tagResolver, pushCtx, popCtx, Val.isTag] at h
            split at h
            · exact Res.noConfusion h
            · rename_i val st2 heq
              injection h with h1 h2
              exact h2 ▸ ihD C _ st val st2 heq
        | ifT c t e =>
            simp [tagResolver, pushCtx, popCtx, Val.isTag] at h
            split at h
            · exact Res.noConfusion h
            · rename_i val st2 heq
              injection h with h1 h2
              exact h2 ▸ ihD C _ st val st2 heq
        | forItem d =>
            simp [tagResolver, pushCtx, popCtx, Val.isTag] at h
            split at h
            · exact Res.noConfusion h
            · rename_i val st2 heq
              injection h with h1 h2
              exact h2 ▸ ihD C _ st val st2 heq
        | forItemIndex d =>
            simp [tagResolver, pushCtx, popCtx, Val.isTag] at h
            split at h
            · exact Res.noConfusion h
            · rename_i val st2 heq
              injection h with h1 h2
              exact h2 ▸ ihD C _ st val st2 heq
        | forT fid it body =>
            simp only [tagResolver] at h
            rw [if_pos (show Val.isTag (.forT fid it body) = true from rfl)] at h
            cases hd : resolveDirect f C (.forT fid it body) (pushCtx (.forT fid it body) st) with
            | err e st2 =>
                rw [hd] at h
                exact Res.noConfusion h
            | ok val st2 =>
                rw [hd] at h
                have hi1 : FInv st st2 := by
                  have h5 := ihD C (.forT fid it body) (pushCtx (.forT fid it body) st) val st2 hd
                  have hpre : FInv st (pushCtx (.forT fid it body) st) := by
                    intro g
                    left
                    cases hs : st.stack with
                    | nil => simp [pushCtx, hs]
                    | cons top rest =>
                        by_cases htf : top = fid
                        · simp [pushCtx, hs, htf]
                        · simp [pushCtx, hs, htf]
                  exact FInv_trans hpre h5
                simp only [popCtx] at h
                cases hs2 : st2.stack with
                | nil =>
                    rw [hs2] at h
                    exact Res.noConfusion h
                | cons top rest =>
                    rw [hs2] at h
                    injection h with h1 h2
                    subst h2
                    intro g
                    rcases hi1 g with h5 | h5
                    · exact Or.inl h5
                    · exact Or.inr h5
      exact ⟨hR, hD, hA, hP, hDI, hLI, hF⟩

/-! ## Tag-free values resolve to themselves

On input without any tag the resolver is the identity (up to the
aliasing question, treated separately on the addressed model): no push,
no substitution, and the container recursion rebuilds the same
structure. -/

theorem tagFreeId : ∀ fuel : Nat,
    (∀ C v st w st', tagResolver fuel C v st = .ok w st' → tagFree v = true →
        w = v ∧ st' = st) ∧
    (∀ C xs st ys st', resolveDictItems fuel C xs st = .ok ys st' → tagFreeD xs = true →
        ys = xs ∧ st' = st) ∧
    (∀ C xs st ys st', resolveListItems fuel C xs st = .ok ys st' → tagFreeL xs = true →
        ys = xs ∧ st' = st) := by
  intro fuel
  induction fuel with
  | zero =>
      refine ⟨?_, ?_, ?_⟩
      · intro C v st w st' h; exact Res.noConfusion h
      · intro C xs st ys st' h; exact Res.noConfusion h
      · intro C xs st ys st' h; exact Res.noConfusion h
  | succ f ih =>
      obtain ⟨ihR, ihDI, ihLI⟩ := ih
      have hDI : ∀ C xs st ys st', resolveDictItems (f + 1) C xs st = .ok ys st' →
          tagFreeD xs = true → ys = xs ∧ st' = st := by
        intro C xs st ys st' h hT
        cases xs with
        | nil =>
            simp only [resolveDictItems] at h
            injection h with h1 h2
            exact ⟨h1.symm, h2.symm⟩
        | cons p rest =>
            simp only [tagFreeD, Bool.and_eq_true] at hT
            simp only [resolveDictItems] at h
            split at h
            · rename_i v st1 heq
              obtain ⟨hv, hst1⟩ := ihR C p.2 st v st1 heq hT.1
              split at h
              · rename_i ys2 st2 heq2
                injection h with h1 h2
                obtain ⟨hys, hst2⟩ := ihDI C rest st1 ys2 st2 heq2 hT.2
                constructor
                · rw [← h1, hv, hys]
                · rw [← h2, hst2, hst1]
              · exact Res.noConfusion h
            · exact Res.noConfusion h
      have hLI : ∀ C xs st ys st', resolveListItems (f + 1) C xs st = .ok ys st' →
          tagFreeL xs = true → ys = xs ∧ st' = st := by
        intro C xs st ys st' h hT
        cases xs with
        | nil =>
            simp only [resolveListItems] at h
            injection h with h1 h2
            exact ⟨h1.symm, h2.symm⟩
        | cons a rest =>
            simp only [tagFreeL, Bool.and_eq_true] at hT
            simp only [resolveListItems] at h
            split at h
            · rename_i v st1 heq
              obtain ⟨hv, hst1⟩ := ihR C a st v st1 heq hT.1
              split at h
              · rename_i ys2 st2 heq2
                injection h with h1 h2
                obtain ⟨hys, hst2⟩ := ihLI C rest st1 ys2 st2 heq2 hT.2
                constructor
                · rw [← h1, hv, hys]
                · rw [← h2, hst2, hst1]
              · exact Res.noConfusion h
            · exact Res.noConfusion h
      have hR : ∀ C v st w st', tagResolver (f + 1) C v st = .ok w st' →
          tagFree v = true → w = v ∧ st' = st := by
        intro C v st w st' h hT
        cases v with
        | null =>
            simp [tagResolver, pushCtx, popCtx, Val.isTag] at h
            exact ⟨h.1.symm, h.2.symm⟩
        | bool b =>
            simp [tagResolver, pushCtx, popCtx, Val.isTag] at h
            exact ⟨h.1.symm, h.2.symm⟩
        | int n =>
            simp [tagResolver, pushCtx, popCtx, Val.isTag] at h
            exact ⟨h.1.symm, h.2.symm⟩
        | str s =>
            simp [tagResolver, pushCtx, popCtx, Val.isTag] at h
            exact ⟨h.1.symm, h.2.symm⟩
        | dstate d =>
            simp [tagResolver, pushCtx, popCtx, Val.isTag] at h
            exact ⟨h.1.symm, h.2.symm⟩
        | dict xs =>
            simp only [tagFree] at hT
            simp [tagResolver, pushCtx, popCtx, Val.isTag] at h
            split at h
            · rename_i ys st3 heq
              injection h with h1 h2
              obtain ⟨hys, hst⟩ := ihDI C xs st ys st3 heq hT
              constructor
              · rw [← h1, hys]
              · rw [← h2, hst]
            · exact Res.noConfusion h
        | list xs =>
            simp only [tagFree] at hT
            simp [tagResolver, pushCtx, popCtx, Val.isTag] at h
            split at h
            · rename_i ys st3 heq
              injection h with h1 h2
              obtain ⟨hys, hst⟩ := ihLI C xs st ys st3 heq hT
              constructor
              · rw [← h1, hys]
              · rw [← h2, hst]
            · exact Res.noConfusion h
        | keyOf idFrom => simp [tagFree] at hT
        | env key dflt => simp [tagFree] at hT
        | ctx key dflt => simp [tagFree] at hT
        | format fs args => simp [tagFree] at hT
        | find mn conds => simp [tagFree] at hT
        | cond mode args => simp [tagFree] at hT
        | ifT c t e => simp [tagFree] at hT
        | forT fid it body => simp [tagFree] at hT
        | forItem d => simp [tagFree] at hT
        | forItemIndex d => simp [tagFree] at hT
      exact ⟨hR, hDI, hLI⟩

/-! ## The addressed model: structure preserved, addresses fresh

Every successful run returns a value with the same stripped structure
whose container addresses all lie in [c, c'): the deep copy allocates
only fresh containers, so the result shares no mutable node with any
value whose addresses are below the incoming counter. -/

theorem amodel : ∀ fuel : Nat,
    (∀ c v w c', deepcopyA fuel c v = some (w, c') →
        strip w = strip v ∧ c ≤ c' ∧ ∀ a ∈ addrsOf w, c ≤ a ∧ a < c') ∧
    (∀ c xs ys c', deepcopyLA fuel c xs = some (ys, c') →
        stripL ys = stripL xs ∧ c ≤ c' ∧ ∀ a ∈ addrsL ys, c ≤ a ∧ a < c') ∧
    (∀ c xs ys c', deepcopyDA fuel c xs = some (ys, c') →
        stripD ys = stripD xs ∧ c ≤ c' ∧ ∀ a ∈ addrsD ys, c ≤ a ∧ a < c') ∧
    (∀ c v w c', tagResolverA fuel c v = some (w, c') →
        strip w = strip v ∧ c ≤ c' ∧ ∀ a ∈ addrsOf w, c ≤ a ∧ a < c') ∧
    (∀ c xs ys c', resolveLA fuel c xs = some (ys, c') →
        stripL ys = stripL xs ∧ c ≤ c' ∧ ∀ a ∈ addrsL ys, c ≤ a ∧ a < c') ∧
    (∀ c xs ys c', resolveDA fuel c xs = some (ys, c') →
        stripD ys = stripD xs ∧ c ≤ c' ∧ ∀ a ∈ addrsD ys, c ≤ a ∧ a < c') := by
  intro fuel
  induction fuel with
  | zero =>
      refine ⟨?_, ?_, ?_, ?_, ?_, ?_⟩ <;> · intro c x w c' h; exact Option.noConfusion h
  | succ f ih =>
      obtain ⟨ihC, ihCL, ihCD, ihT, ihTL, ihTD⟩ := ih
      have hC : ∀ c v w c', deepcopyA (f + 1) c v = some (w, c') →
          strip w = strip v ∧ c ≤ c' ∧ ∀ a ∈ addrsOf w, c ≤ a ∧ a < c' := by
        intro c v w c' h
        cases v with
        | anull =>
            simp only [deepcopyA, Option.some.injEq, Prod.mk.injEq] at h
            obtain ⟨h1, h2⟩ := h
            subst h1; subst h2
            exact ⟨rfl, Nat.le_refl c, by intro a ha; simp [addrsOf] at ha⟩
        | abool b =>
            simp only [deepcopyA, Option.some.injEq, Prod.mk.injEq] at h
            obtain ⟨h1, h2⟩ := h
            subst h1; subst h2
            exact ⟨rfl, Nat.le_refl c, by intro a ha; simp [addrsOf] at ha⟩
        | aint n =>
            simp only [deepcopyA, Option.some.injEq, Prod.mk.injEq] at h
            obtain ⟨h1, h2⟩ := h
            subst h1; subst h2
            exact ⟨rfl, Nat.le_refl c, by intro a ha; simp [addrsOf] at ha⟩
        | astr s =>
            simp only [deepcopyA, Option.some.injEq, Prod.mk.injEq] at h
            obtain ⟨h1, h2⟩ := h
            subst h1; subst h2
            exact ⟨rfl, Nat.le_refl c, by intro a ha; simp [addrsOf] at ha⟩
        | alist addr xs =>
            simp only [deepcopyA] at h
            split at h
            · rename_i ys c2 heq
              simp only [Option.some.injEq, Prod.mk.injEq] at h
              obtain ⟨h1, h2⟩ := h
              subst h1; subst h2
              obtain ⟨hs, hle, hb⟩ := ihCL (c + 1) xs ys c2 heq
              refine ⟨by simp [strip, hs], by omega, ?_⟩
              intro a ha
              simp only [addrsOf, List.mem_cons] at ha
              rcases ha with ha | ha
              · omega
              · have := hb a ha; omega
            · exact Option.noConfusion h
        | adict addr xs =>
            simp only [deepcopyA] at h
            split at h
            · rename_i ys c2 heq
              simp only [Option.some.injEq, Prod.mk.injEq] at h
              obtain ⟨h1, h2⟩ := h
              subst h1; subst h2
              obtain ⟨hs, hle, hb⟩ := ihCD (c + 1) xs ys c2 heq
              refine ⟨by simp [strip, hs], by omega, ?_⟩
              intro a ha
              simp only [addrsOf, List.mem_cons] at ha
              rcases ha with ha | ha
              · omega
              · have := hb a ha; omega
            · exact Option.noConfusion h
      have hCL : ∀ c xs ys c', deepcopyLA (f + 1) c xs = some (ys, c') →
          stripL ys = stripL xs ∧ c ≤ c' ∧ ∀ a ∈ addrsL ys, c ≤ a ∧ a < c' := by
        intro c xs ys c' h
        cases xs with
        | nil =>
            simp only [deepcopyLA, Option.some.injEq, Prod.mk.injEq] at h
            obtain ⟨h1, h2⟩ := h
            subst h1; subst h2
            exact ⟨rfl, Nat.le_refl c, by intro a ha; simp [addrsL] at ha⟩
        | cons x r =>
            simp only [deepcopyLA] at h
            split at h
            · rename_i y c1 heq
              split at h
              · rename_i ys2 c2 heq2
                simp only [Option.some.injEq, Prod.mk.injEq] at h
                obtain ⟨h1, h2⟩ := h
                subst h1; subst h2
                obtain ⟨hs, hle, hb⟩ := ihC c x y c1 heq
                obtain ⟨hs2, hle2, hb2⟩ := ihCL c1 r ys2 c2 heq2
                refine ⟨by simp [stripL, hs, hs2], by omega, ?_⟩
                intro a ha
                simp only [addrsL, List.mem_append] at ha
                rcases ha with ha | ha
                · have := hb a ha; omega
                · have := hb2 a ha; omega
              · exact Option.noConfusion h
            · exact Option.noConfusion h
      have hCD : ∀ c xs ys c', deepcopyDA (f + 1) c xs = some (ys, c') →
          stripD ys = stripD xs ∧ c ≤ c' ∧ ∀ a ∈ addrsD ys, c ≤ a ∧ a < c' := by
        intro c xs ys c' h
        cases xs with
        | nil =>
            simp only [deepcopyDA, Option.some.injEq, Prod.mk.injEq] at h
            obtain ⟨h1, h2⟩ := h
            subst h1; subst h2
            exact ⟨rfl, Nat.le_refl c, by intro a ha; simp [addrsD] at ha⟩
        | cons p r =>
            simp only [deepcopyDA] at h
            split at h
            · rename_i y c1 heq
              split at h
              · rename_i ys2 c2 heq2
                simp only [Option.some.injEq, Prod.mk.injEq] at h
                obtain ⟨h1, h2⟩ := h
                subst h1; subst h2
                obtain ⟨hs, hle, hb⟩ := ihC c p.2 y c1 heq
                obtain ⟨hs2, hle2, hb2⟩ := ihCD c1 r ys2 c2 heq2
                refine ⟨by simp [stripD, hs, hs2], by omega, ?_⟩
                intro a ha
                simp only [addrsD, List.mem_append] at ha
                rcases ha with ha | ha
                · have := hb a ha; omega
                · have := hb2 a ha; omega
              · exact Option.noConfusion h
            · exact Option.noConfusion h
      have hT : ∀ c v w c', tagResolverA (f + 1) c v = some (w, c') →
          strip w = strip v ∧ c ≤ c' ∧ ∀ a ∈ addrsOf w, c ≤ a ∧ a < c' := by
        intro c v w c' h
        simp only [tagResolverA] at h
        split at h
        · exact Option.noConfusion h
        · rename_i cp c1 heq
          obtain ⟨hcs, hcle, hcb⟩ := ihC c v cp c1 heq
          split at h
          · rename_i xs a cs
            split at h
            · rename_i ys c2 heq2
              simp only [Option.some.injEq, Prod.mk.injEq] at h
              obtain ⟨h1, h2⟩ := h
              subst h1; subst h2
              obtain ⟨hs2, hle2, hb2⟩ := ihTL c1 xs ys c2 heq2
              have haddr := hcb a (by simp [addrsOf])
              refine ⟨by simp only [strip]; rw [hs2], by omega, ?_⟩
              intro b hb
              simp only [addrsOf, List.mem_cons] at hb
              rcases hb with hb | hb
              · omega
              · have := hb2 b hb; omega
            · exact Option.noConfusion h
          · rename_i xs a cs
            split at h
            · rename_i ys c2 heq2
              simp only [Option.some.injEq, Prod.mk.injEq] at h
              obtain ⟨h1, h2⟩ := h
              subst h1; subst h2
              obtain ⟨hs2, hle2, hb2⟩ := ihTD c1 xs ys c2 heq2
              have haddr := hcb a (by simp [addrsOf])
              refine ⟨by simp only [strip]; rw [hs2], by omega, ?_⟩
              intro b hb
              simp only [addrsOf, List.mem_cons] at hb
              rcases hb with hb | hb
              · omega
              · have := hb2 b hb; omega
            · exact Option.noConfusion h
          · exact Option.noConfusion h
          · exact Option.noConfusion h
          · rename_i hne1 hne2
            simp only [Option.some.injEq, Prod.mk.injEq] at h
            obtain ⟨h1, h2⟩ := h
            subst h1; subst h2
            exact ⟨hcs, hcle, hcb⟩
      have hTL : ∀ c xs ys c', resolveLA (f + 1) c xs = some (ys, c') →
          stripL ys = stripL xs ∧ c ≤ c' ∧ ∀ a ∈ addrsL ys, c ≤ a ∧ a < c' := by
        intro c xs ys c' h
        cases xs with
        | nil =>
            simp only [resolveLA, Option.some.injEq, Prod.mk.injEq] at h
            obtain ⟨h1, h2⟩ := h
            subst h1; subst h2
            exact ⟨rfl, Nat.le_refl c, by intro a ha; simp [addrsL] at ha⟩
        | cons x r =>
            simp only [resolveLA] at h
            split at h
            · rename_i y c1 heq
              split at h
              · rename_i ys2 c2 heq2
                simp only [Option.some.injEq, Prod.mk.injEq] at h
                obtain ⟨h1, h2⟩ := h
                subst h1; subst h2
                obtain ⟨hs, hle, hb⟩ := ihT c x y c1 heq
                obtain ⟨hs2, hle2, hb2⟩ := ihTL c1 r ys2 c2 heq2
                refine ⟨by simp [stripL, hs, hs2], by omega, ?_⟩
                intro a ha
                simp only [addrsL, List.mem_append] at ha
                rcases ha with ha | ha
                · have := hb a ha; omega
                · have := hb2 a ha; omega
              · exact Option.noConfusion h
            · exact Option.noConfusion h
      have hTD : ∀ c xs ys c', resolveDA (f + 1) c xs = some (ys, c') →
          stripD ys = stripD xs ∧ c ≤ c' ∧ ∀ a ∈ addrsD ys, c ≤ a ∧ a < c' := by
        intro c xs ys c' h
        cases xs with
        | nil =>
            simp only [resolveDA, Option.some.injEq, Prod.mk.injEq] at h
            obtain ⟨h1, h2⟩ := h
            subst h1; subst h2
            exact ⟨rfl, Nat.le_refl c, by intro a ha; simp [addrsD] at ha⟩
        | cons p r =>
            simp only [resolveDA] at h
            split at h
            · rename_i y c1 heq
              split at h
              · rename_i ys2 c2 heq2
                simp only [Option.some.injEq, Prod.mk.injEq] at h
                obtain ⟨h1, h2⟩ := h
                subst h1; subst h2
                obtain ⟨hs, hle, hb⟩ := ihT c p.2 y c1 heq
                obtain ⟨hs2, hle2, hb2⟩ := ihTD c1 r ys2 c2 heq2
                refine ⟨by simp [stripD, hs, hs2], by omega, ?_⟩
                intro a ha
                simp only [addrsD, List.mem_append] at ha
                rcases ha with ha | ha
                · have := hb a ha; omega
                · have := hb2 a ha; omega
              · exact Option.noConfusion h
            · exact Option.noConfusion h
      exact ⟨hC, hCL, hCD, hT, hTL, hTD⟩

/-! ## Concrete fixtures for witnesses and counterexamples -/

/-- A minimal external config: empty environment, empty store, failing
formatter. -/
def cfg0 : Config := ⟨fun _ => none, fun _ _ => none, fun _ _ => .error ()⟩

/-- A plain entry with a string model and no materialized instance. -/
def ent0 : Entry := ⟨.str "authentik_core.user", .dstate .present, [], [], [], none, none⟩

/-- An empty blueprint. -/
def bp0 : Blueprint := ⟨1, [], []⟩

def C0 : RCtx := ⟨cfg0, ent0, bp0⟩

/-! ## Lemmas about BaseForItem.resolve -/

theorem baseForItem_err_deep (st : St) (d : Int) (cls : String) (h0 : 0 ≤ d)
    (hlen : st.stack.length ≤ d.toNat) :
    ∃ m, baseForItemResolve st d cls = .error (.entryInvalid m) := by
  have hnl : ¬d < 0 := by omega
  have hget : st.stack.get? d.toNat = none := List.get?_eq_none.mpr hlen
  simp only [List.get?_eq_getElem?] at hget
  by_cases hd : d = 0
  · subst hd
    refine ⟨cls ++ " tags are only usable inside a For tag", ?_⟩
    simp only [show (0 : Int).toNat = 0 from rfl] at hget
    simp [baseForItemResolve, getTagContext, hget]
  · refine ⟨"Invalid " ++ cls ++ " tag depth", ?_⟩
    simp [baseForItemResolve, getTagContext, hnl, hget, hd]

theorem baseForItem_err_neg (st : St) (d : Int) (cls : String) (hneg : d < 0) :
    ∃ m, baseForItemResolve st d cls = .error (.entryInvalid m) := by
  have hd : d ≠ 0 := by omega
  refine ⟨"Invalid " ++ cls ++ " tag depth", ?_⟩
  simp [baseForItemResolve, getTagContext, hneg, hd]

theorem baseForItem_ok (st : St) (d : Int) (cls : String) (fid : Nat) (p : Nat × Val)
    (h0 : 0 ≤ d) (hget : st.stack.get? d.toNat = some fid) (hf : st.fctx fid = some p) :
    baseForItemResolve st d cls = .ok p := by
  have hnl : ¬d < 0 := by omega
  simp only [List.get?_eq_getElem?] at hget
  simp [baseForItemResolve, getTagContext, hnl, hget, hf]

/-- C5.  For every entry state and depth d, ForItem (resp. ForItemIndex)
resolves to the current item (resp. the current index) of the d-th
innermost For context on the stack (depth 0 is the top); whenever no For
context exists at that depth (stack too short, in particular empty at
depth 0) resolution fails with EntryInvalid, as it also does for a
negative depth. -/
theorem c5_forItem_depth_addressing (fuel : Nat) (C : RCtx) (st : St) :
    (∀ d : Int, 0 ≤ d → st.stack.length ≤ d.toNat →
        (∃ m, resolveDirect (fuel + 1) C (.forItem d) st = .err (.entryInvalid m) st) ∧
        (∃ m, resolveDirect (fuel + 1) C (.forItemIndex d) st = .err (.entryInvalid m) st)) ∧
    (∀ d : Int, d < 0 →
        (∃ m, resolveDirect (fuel + 1) C (.forItem d) st = .err (.entryInvalid m) st) ∧
        (∃ m, resolveDirect (fuel + 1) C (.forItemIndex d) st = .err (.entryInvalid m) st)) ∧
    (∀ (d : Int) (fid i : Nat) (x : Val), 0 ≤ d → st.stack.get? d.toNat = some fid →
        st.fctx fid = some (i, x) →
        resolveDirect (fuel + 1) C (.forItem d) st = .ok x st ∧
        resolveDirect (fuel + 1) C (.forItemIndex d) st = .ok (.int (Int.ofNat i)) st) := by
  refine ⟨?_, ?_, ?_⟩
  · intro d h0 hlen
    constructor
    · obtain ⟨m, hm⟩ := baseForItem_err_deep st d "ForItem" h0 hlen
      exact ⟨m, by simp [resolveDirect, hm]⟩
    · obtain ⟨m, hm⟩ := baseForItem_err_deep st d "ForItemIndex" h0 hlen
      exact ⟨m, by simp [resolveDirect, hm]⟩
  · intro d hneg
    constructor
    · obtain ⟨m, hm⟩ := baseForItem_err_neg st d "ForItem" hneg
      exact ⟨m, by simp [resolveDirect, hm]⟩
    · obtain ⟨m, hm⟩ := baseForItem_err_neg st d "ForItemIndex" hneg
      exact ⟨m, by simp [resolveDirect, hm]⟩
  · intro d fid i x h0 hget hf
    constructor
    · have hm := baseForItem_ok st d "ForItem" fid (i, x) h0 hget hf
      simp [resolveDirect, hm]
    · have hm := baseForItem_ok st d "ForItemIndex" fid (i, x) h0 hget hf
      simp [resolveDirect, hm]

/-- A state with one active For context: fid 3 on top, current pair
(1, "b"). -/
def stF : St := ⟨[3], fun g => if g = 3 then some (1, .str "b") else none⟩

/-- C5 witness: with one For context (fid 3, current pair (1, "b")) on
the stack, ForItem 0 yields "b", ForItemIndex 0 yields 1, ForItem 1
fails with EntryInvalid (depth exceeds the one active loop), and outside
any loop ForItem 0 fails with EntryInvalid. -/
theorem c5_witness :
    (resolveDirect 5 C0 (.forItem 0) stF = .ok (.str "b") stF) ∧
    (resolveDirect 5 C0 (.forItemIndex 0) stF = .ok (.int 1) stF) ∧
    (∃ m, resolveDirect 5 C0 (.forItem 1) stF = .err (.entryInvalid m) stF) ∧
    (∃ m, resolveDirect 5 C0 (.forItem 0) St.clean = .err (.entryInvalid m) St.clean) := by
  refine ⟨?_, ?_, ?_, ?_⟩
  · exact ((c5_forItem_depth_addressing 4 C0 stF).2.2 0 3 1 (.str "b") (by omega) rfl rfl).1
  · exact ((c5_forItem_depth_addressing 4 C0 stF).2.2 0 3 1 (.str "b") (by omega) rfl rfl).2
  · exact ((c5_forItem_depth_addressing 4 C0 stF).1 1 (by omega) (by simp [stF])).1
  · exact ((c5_forItem_depth_addressing 4 C0 St.clean).1 0 (by omega) (by simp [St.clean])).1

/-- C7.  If resolves its condition (directly when it is a tag) and then
resolves only the selected branch through the full resolver, wrapping a
TypeError into EntryInvalid; the result does not depend on the unchosen
branch, so a tag whose resolution would fail is never evaluated there. -/
theorem c7_if_short_circuit (fuel : Nat) (C : RCtx) (c : Val) (st : St) (cv : Val) (st1 : St)
    (hc : (if c.isTag then resolveDirect fuel C c st else Res.ok c st) = .ok cv st1) :
    (truthy cv = false → ∀ t1 t2 e : Val,
        resolveDirect (fuel + 1) C (.ifT c t1 e) st = wrapTypeErr (tagResolver fuel C e st1) ∧
        resolveDirect (fuel + 1) C (.ifT c t1 e) st =
          resolveDirect (fuel + 1) C (.ifT c t2 e) st) ∧
    (truthy cv = true → ∀ (t e1 e2 : Val),
        resolveDirect (fuel + 1) C (.ifT c t e1) st = wrapTypeErr (tagResolver fuel C t st1) ∧
        resolveDirect (fuel + 1) C (.ifT c t e1) st =
          resolveDirect (fuel + 1) C (.ifT c t e2) st) := by
  constructor
  · intro hb t1 t2 e
    have h1 : resolveDirect (fuel + 1) C (.ifT c t1 e) st =
        wrapTypeErr (tagResolver fuel C e st1) := by
      simp [resolveDirect, hc, hb]
    have h2 : resolveDirect (fuel + 1) C (.ifT c t2 e) st =
        wrapTypeErr (tagResolver fuel C e st1) := by
      simp [resolveDirect, hc, hb]
    exact ⟨h1, h1.trans h2.symm⟩
  · intro hb t e1 e2
    have h1 : resolveDirect (fuel + 1) C (.ifT c t e1) st =
        wrapTypeErr (tagResolver fuel C t st1) := by
      simp [resolveDirect, hc, hb]
    have h2 : resolveDirect (fuel + 1) C (.ifT c t e2) st =
        wrapTypeErr (tagResolver fuel C t st1) := by
      simp [resolveDirect, hc, hb]
    exact ⟨h1, h1.trans h2.symm⟩

/-- C7 witness: If(condition=False, when_true=Condition("AND",[]) — a tag
whose resolution raises EntryInvalid — when_false=42) resolves to 42,
while resolving the failing tag directly indeed errors. -/
theorem c7_witness :
    resolveDirect 10 C0 (.ifT (.bool false) (.cond "AND" []) (.int 42)) St.clean =
      .ok (.int 42) St.clean ∧
    resolveDirect 10 C0 (.cond "AND" []) St.clean =
      .err (.entryInvalid "At least one value is required after mode selection.") St.clean := by
  constructor
  · have h := ((c7_if_short_circuit 9 C0 (.bool false) St.clean (.bool false) St.clean
      rfl).1 rfl (.cond "AND" []) (.int 7) (.int 42)).1
    rw [h]
    rfl
  · rfl

/-! ## Condition (C6) -/

/-- The argument loop on literal (non-tag) arguments returns them
unchanged without touching the state. -/
theorem resolveArgs_lit : ∀ (args : List Val) (fuel : Nat) (C : RCtx) (st : St),
    (∀ a ∈ args, a.isTag = false) → args.length < fuel →
    resolveArgs fuel C args st = .ok args st := by
  intro args
  induction args with
  | nil =>
      intro fuel C st _ hlen
      cases fuel with
      | zero => simp at hlen
      | succ f => rfl
  | cons a rest ih =>
      intro fuel C st hnt hlen
      cases fuel with
      | zero => simp at hlen
      | succ f =>
          have ha : a.isTag = false := hnt a (List.mem_cons_self _ _)
          have hrest := ih f C st (fun x hx => hnt x (List.mem_cons_of_mem _ hx))
            (by simp only [List.length_cons] at hlen; omega)
          simp [resolveArgs, ha, hrest]

/-- The XOR comparator's length guard is redundant: on a nonempty tuple
it is the left xor fold (reduce of one element is that element). -/
theorem xor_branch_eq (bs : List Bool) (h : bs ≠ []) :
    (if bs.length > 1 then reduceXor bs else bs.headD false) = reduceXor bs := by
  match bs with
  | [] => exact absurd rfl h
  | [b] => simp [reduceXor]
  | b :: c :: rest => simp [reduceXor]

/-- The comparator dict lookup fails exactly for the modes outside its
six keys. -/
theorem comparators_eq_none_iff (s : String) :
    comparators s = none ↔
      s ∉ (["AND", "NAND", "OR", "NOR", "XOR", "XNOR"] : List String) := by
  unfold comparators
  split_ifs with h1 h2 h3 h4 h5 h6 <;> simp_all

/-- C6.  Condition with case-insensitive mode and literal arguments
coerced to booleans by truthiness: AND and OR are all and any, NAND and
NOR their negations, XOR the left-to-right xor fold (one argument is
returned unchanged), XNOR its negation; resolution fails with
EntryInvalid exactly when the argument list is empty or the uppercased
mode is none of the six. -/
theorem c6_condition_semantics (fuel : Nat) (C : RCtx) (mode : String) (args : List Val)
    (st : St) (hnt : ∀ a ∈ args, a.isTag = false) (hlen : args.length < fuel) :
    (args = [] → resolveDirect (fuel + 1) C (.cond mode args) st =
        .err (.entryInvalid "At least one value is required after mode selection.") st) ∧
    (args ≠ [] →
      (pyUpper mode = "AND" → resolveDirect (fuel + 1) C (.cond mode args) st =
          .ok (.bool ((args.map truthy).all (fun b => b))) st) ∧
      (pyUpper mode = "NAND" → resolveDirect (fuel + 1) C (.cond mode args) st =
          .ok (.bool (!(args.map truthy).all (fun b => b))) st) ∧
      (pyUpper mode = "OR" → resolveDirect (fuel + 1) C (.cond mode args) st =
          .ok (.bool ((args.map truthy).any (fun b => b))) st) ∧
      (pyUpper mode = "NOR" → resolveDirect (fuel + 1) C (.cond mode args) st =
          .ok (.bool (!(args.map truthy).any (fun b => b))) st) ∧
      (pyUpper mode = "XOR" → resolveDirect (fuel + 1) C (.cond mode args) st =
          .ok (.bool (reduceXor (args.map truthy))) st) ∧
      (pyUpper mode = "XNOR" → resolveDirect (fuel + 1) C (.cond mode args) st =
          .ok (.bool (!reduceXor (args.map truthy))) st) ∧
      (pyUpper mode ∉ (["AND", "NAND", "OR", "NOR", "XOR", "XNOR"] : List String) →
          resolveDirect (fuel + 1) C (.cond mode args) st =
            .err (.entryInvalid "KeyError: unknown mode") st)) ∧
    (∀ b : Bool, reduceXor [b] = b) := by
  have hargs := resolveArgs_lit args fuel C st hnt hlen
  have hmapne : args ≠ [] → (args.map truthy) ≠ [] := by
    intro h hx
    exact h (List.map_eq_nil_iff.mp hx)
  refine ⟨?_, ?_, ?_⟩
  · intro he
    subst he
    simp [resolveDirect, hargs]
  · intro hne
    have hemp : args.isEmpty = false := by
      cases args with
      | nil => exact absurd rfl hne
      | cons a r => rfl
    refine ⟨?_, ?_, ?_, ?_, ?_, ?_, ?_⟩
    · intro hm
      simp [resolveDirect, hargs, hemp, hm, comparators]
    · intro hm
      simp [resolveDirect, hargs, hemp, hm, comparators]
    · intro hm
      simp [resolveDirect, hargs, hemp, hm, comparators]
    · intro hm
      simp [resolveDirect, hargs, hemp, hm, comparators]
    · intro hm
      simp [resolveDirect, hargs, hemp, hm, comparators, xor_branch_eq _ (hmapne hne)]
      intro hle
      cases args with
      | nil => exact absurd rfl hne
      | cons a rest =>
          cases rest with
          | nil => simp [reduceXor]
          | cons b r => simp at hle
    · intro hm
      simp [resolveDirect, hargs, hemp, hm, comparators, xor_branch_eq _ (hmapne hne)]
      intro hle
      cases args with
      | nil => exact absurd rfl hne
      | cons a rest =>
          cases rest with
          | nil => simp [reduceXor]
          | cons b r => simp at hle
    · intro hm
      have hc := (comparators_eq_none_iff (pyUpper mode)).mpr hm
      simp [resolveDirect, hargs, hemp, hc]
  · intro b
    rfl

/-- C6 witness: XOR over True, False, False is True; XOR over a single
True is True; XNOR over True, False, False is False; AND with no
arguments raises EntryInvalid; lowercase mode names are accepted. -/
theorem c6_witness :
    resolveDirect 10 C0 (.cond "XOR" [.bool true, .bool false, .bool false]) St.clean =
      .ok (.bool true) St.clean ∧
    resolveDirect 10 C0 (.cond "XOR" [.bool true]) St.clean = .ok (.bool true) St.clean ∧
    resolveDirect 10 C0 (.cond "XNOR" [.bool true, .bool false, .bool false]) St.clean =
      .ok (.bool false) St.clean ∧
    resolveDirect 10 C0 (.cond "AND" []) St.clean =
      .err (.entryInvalid "At least one value is required after mode selection.") St.clean ∧
    resolveDirect 10 C0 (.cond "xor" [.bool true]) St.clean = .ok (.bool true) St.clean := by
  refine ⟨?_, ?_, ?_, ?_, ?_⟩
  · exact ((c6_condition_semantics 9 C0 "XOR" [.bool true, .bool false, .bool false]
      St.clean (by decide) (by decide)).2.1 (List.cons_ne_nil _ _)).2.2.2.2.1 rfl
  · exact ((c6_condition_semantics 9 C0 "XOR" [.bool true]
      St.clean (by decide) (by decide)).2.1 (List.cons_ne_nil _ _)).2.2.2.2.1 rfl
  · exact ((c6_condition_semantics 9 C0 "XNOR" [.bool true, .bool false, .bool false]
      St.clean (by decide) (by decide)).2.1 (List.cons_ne_nil _ _)).2.2.2.2.2.1 rfl
  · exact (c6_condition_semantics 9 C0 "AND" [] St.clean (by decide) (by decide)).1 rfl
  · exact ((c6_condition_semantics 9 C0 "xor" [.bool true]
      St.clean (by decide) (by decide)).2.1 (List.cons_ne_nil _ _)).2.2.2.2.1 rfl

/-! ## get_state (C10) -/

/-- C10.  get_state feeds the fully resolved state value to the
DesiredState enum constructor: a member or one of the member values
"absent", "present", "created" yields that member; anything else raises
the enum's plain ValueError (not an EntryInvalidError). -/
theorem c10_get_state_value_error (fuel : Nat) (C : RCtx) (st : St) (v : Val) (st1 : St)
    (h : tagResolver fuel C C.entry.state st = .ok v st1) :
    (∀ d, dstateOf v = some d → getState fuel C st = .ok d st1) ∧
    (dstateOf v = none → getState fuel C st =
        .err (.valueError "is not a valid BlueprintEntryDesiredState") st1) := by
  constructor
  · intro d hd
    simp [getState, h, hd]
  · intro hd
    simp [getState, h, hd]

/-- An entry whose state field resolves to an invalid string. -/
def entBad : Entry := ⟨.str "m", .str "borked", [], [], [], none, none⟩

def CBad : RCtx := ⟨cfg0, entBad, bp0⟩

/-- An entry whose state field is the string "present". -/
def entPres : Entry := ⟨.str "m", .str "present", [], [], [], none, none⟩

def CPres : RCtx := ⟨cfg0, entPres, bp0⟩

/-- C10 witness: a resolved state "borked" raises ValueError, a resolved
state "present" yields the PRESENT member. -/
theorem c10_witness :
    getState 5 CBad St.clean =
      .err (.valueError "is not a valid BlueprintEntryDesiredState") St.clean ∧
    getState 5 CPres St.clean = .ok .present St.clean := by
  constructor
  · exact (c10_get_state_value_error 5 CBad St.clean (.str "borked") St.clean rfl).2 rfl
  · exact (c10_get_state_value_error 5 CPres St.clean (.str "present") St.clean rfl).1
      .present rfl

/-! ## The context stack contract (C2) -/

/-- C2 amended.  After every successful top-level tag_resolver call the
entry's context stack is restored, provided the For objects in the value
are pairwise distinct and none of them is already on the stack.  (The
error half of the original claim is refuted by c2_counterexample: the
source has no try/finally, so an exception skips the pop.) -/
theorem c2_stack_balanced_on_success (fuel : Nat) (C : RCtx) (v : Val) (st : St)
    (w : Val) (st' : St) (h : tagResolver fuel C v st = .ok w st')
    (hnd : (fidsOf v).Nodup) (hdis : ∀ g ∈ fidsOf v, g ∉ st.stack) :
    st'.stack = st.stack :=
  (stackInv fuel).1 C v st w st' h hnd hdis

/-- C2 counterexample: resolving a For tag whose iterable is
Condition("AND", []) fails with EntryInvalid after the For was pushed;
the pop on line 133 is skipped by the exception, so the stack ends as
[0], not restored to []. -/
theorem c2_counterexample :
    (tagResolver 10 C0 (.forT 0 (.cond "AND" []) (.int 1)) St.clean).isOk = false ∧
    (tagResolver 10 C0 (.forT 0 (.cond "AND" []) (.int 1)) St.clean).state.stack = [0] ∧
    St.clean.stack = [] :=
  ⟨rfl, rfl, rfl⟩

/-- A well-formed For value that resolves successfully. -/
def vW : Val := .forT 0 (.list [.int 1, .int 2]) (.forItem 0)

/-- C2 witness: a successful resolution of a For over [1, 2] from the
clean state leaves the stack empty as found. -/
theorem c2_witness : (tagResolver 20 C0 vW St.clean).state.stack = [] := by
  exact c2_stack_balanced_on_success 20 C0 vW St.clean _ _ rfl
    (by simp only [vW, fidsOf, fidsL]; decide) (by simp [St.clean])

/-! ## For (C4) -/

/-- The For tag of the spec's worked example: iterable [10, 20, 30],
item body a mapping of ForItemIndex(0) and ForItem(0). -/
def v4ex : Val :=
  .forT 0 (.list [.int 10, .int 20, .int 30])
    (.dict [("idx", .forItemIndex 0), ("val", .forItem 0)])

/-- The expected resolution of v4ex. -/
def v4res : Val :=
  .list [.dict [("idx", .int 0), ("val", .int 10)],
         .dict [("idx", .int 1), ("val", .int 20)],
         .dict [("idx", .int 2), ("val", .int 30)]]

/-- C4.  For.resolve enumerates the resolved iterable as (index, item)
pairs in order, resolves item_body through the full resolver once per
pair with the current pair set, and collects the results in iteration
order (the spec's worked example is the first conjunct, whose final
state also shows the stack restored and the current pair cleared); and
every successful top-level resolution of a For tag from a fresh entry
state returns the entry state to exactly the fresh state, so resolving
the same For tag object again in a second independent call yields the
identical result (no state leaks between calls). -/
theorem c4_for_resolution_and_reentrancy :
    ((tagResolver 20 C0 v4ex St.clean).val? = some v4res ∧
     (tagResolver 20 C0 v4ex St.clean).state.stack = [] ∧
     (tagResolver 20 C0 v4ex St.clean).state.fctx 0 = none) ∧
    (∀ (fuel : Nat) (C : RCtx) (fid : Nat) (it body w : Val) (st' : St),
        (fidsOf (Val.forT fid it body)).Nodup →
        tagResolver fuel C (.forT fid it body) St.clean = .ok w st' →
        st' = St.clean ∧ tagResolver fuel C (.forT fid it body) st' = .ok w st') := by
  constructor
  · exact ⟨rfl, rfl, rfl⟩
  · intro fuel C fid it body w st' hnd h
    have hs : st'.stack = St.clean.stack :=
      (stackInv fuel).1 C _ St.clean w st' h hnd (by simp [St.clean])
    have hf : FInv St.clean st' := (fctxInv fuel).1 C _ St.clean w st' h
    have hstEq : st' = St.clean := by
      obtain ⟨stk, fx⟩ := st'
      have h1 : stk = [] := hs
      subst h1
      have h2 : fx = fun _ => none := by
        funext g
        rcases hf g with hg | hg
        · exact hg
        · exact hg
      rw [St.clean, h2]
    refine ⟨hstEq, ?_⟩
    rw [hstEq] at h ⊢
    exact h

/-- C4 witness: the worked example resolves successfully; its final
state is exactly the fresh state, and a second resolution from that
state is the very same computation. -/
theorem c4_witness :
    (tagResolver 20 C0 v4ex St.clean).state = St.clean ∧
    tagResolver 20 C0 v4ex (tagResolver 20 C0 v4ex St.clean).state =
      tagResolver 20 C0 v4ex St.clean := by
  have h := c4_for_resolution_and_reentrancy.2 20 C0 0
    (.list [.int 10, .int 20, .int 30])
    (.dict [("idx", .forItemIndex 0), ("val", .forItem 0)]) _ _
    (by simp only [fidsOf, fidsL, fidsD]; decide) rfl
  exact ⟨h.1, h.2⟩

/-! ## Tag-free resolution as a structural deep copy (C8) -/

/-- C8.  On a value containing no tags, tag_resolver is the identity up
to structural equality (first half, on the plain model), and the value
it builds is a structural copy sharing no mutable container with the
input (second half, on the addressed model): the result's addresses all
lie at or above the allocation counter, hence outside the input's
addresses whenever those are below the counter, so mutating the result
cannot mutate the input. -/
theorem c8_tag_free_deep_copy :
    (∀ (fuel : Nat) (C : RCtx) (v : Val) (st : St) (w : Val) (st' : St),
        tagResolver fuel C v st = .ok w st' → tagFree v = true → w = v ∧ st' = st) ∧
    (∀ (fuel c : Nat) (v w : AVal) (c' : Nat),
        tagResolverA fuel c v = some (w, c') →
        strip w = strip v ∧
          ((∀ a ∈ addrsOf v, a < c) → ∀ a ∈ addrsOf w, a ∉ addrsOf v)) := by
  constructor
  · intro fuel C v st w st' h hT
    exact (tagFreeId fuel).1 C v st w st' h hT
  · intro fuel c v w c' h
    obtain ⟨hs, hle, hb⟩ := (amodel fuel).2.2.2.1 c v w c' h
    refine ⟨hs, ?_⟩
    intro hin a ha hmem
    have h1 := hb a ha
    have h2 := hin a hmem
    omega

/-- A tag-free value and its addressed rendering. -/
def v8 : Val := .dict [("a", .list [.int 1])]

def av8 : AVal := .adict 0 [("a", .alist 1 [.aint 1])]

/-- The value tag_resolver builds for av8 with the allocation counter at
2: same structure, container addresses 2 and 4, disjoint from the
input's 0 and 1. -/
def av8res : AVal := .adict 2 [("a", .alist 4 [.aint 1])]

/-- C8 witness: the worked tag-free value resolves to itself with the
state untouched, and on the addressed model the result is structurally
equal to the input with disjoint container addresses. -/
theorem c8_witness :
    tagResolver 5 C0 v8 St.clean = .ok v8 St.clean ∧
    tagResolverA 10 2 av8 = some (av8res, 5) ∧
    strip av8res = strip av8 ∧
    (∀ a ∈ addrsOf av8res, a ∉ addrsOf av8) := by
  have hm := c8_tag_free_deep_copy.1 5 C0 v8 St.clean v8 St.clean rfl rfl
  have hb := c8_tag_free_deep_copy.2 10 2 av8 av8res 5 rfl
  refine ⟨rfl, rfl, hb.1, hb.2 ?_⟩
  intro a ha
  simp [av8, addrsOf, addrsL, addrsD] at ha
  rcases ha with ha | ha <;> omega

/-! ## The recursion structure of tag_resolver (C1) -/

theorem resolveListItems_elems : ∀ (xs : List Val) (fuel : Nat) (C : RCtx) (st : St)
    (ys : List Val) (st' : St), resolveListItems fuel C xs st = .ok ys st' →
    List.Forall₂ (fun x y => ∃ (f2 : Nat) (st1 st2 : St),
      tagResolver f2 C x st1 = .ok y st2) xs ys := by
  intro xs
  induction xs with
  | nil =>
      intro fuel C st ys st' h
      cases fuel with
      | zero => exact Res.noConfusion h
      | succ f =>
          simp only [resolveListItems] at h
          injection h with h1 h2
          exact h1 ▸ List.Forall₂.nil
  | cons a rest ih =>
      intro fuel C st ys st' h
      cases fuel with
      | zero => exact Res.noConfusion h
      | succ f =>
          simp only [resolveListItems] at h
          split at h
          · rename_i v st1 heq
            split at h
            · rename_i ys2 st2 heq2
              injection h with h1 h2
              exact h1 ▸ List.Forall₂.cons ⟨f, st, st1, heq⟩ (ih f C st1 ys2 st2 heq2)
            · exact Res.noConfusion h
          · exact Res.noConfusion h

theorem resolveDictItems_elems : ∀ (xs : List (String × Val)) (fuel : Nat) (C : RCtx)
    (st : St) (ys : List (String × Val)) (st' : St),
    resolveDictItems fuel C xs st = .ok ys st' →
    List.Forall₂ (fun p q => p.1 = q.1 ∧ ∃ (f2 : Nat) (st1 st2 : St),
      tagResolver f2 C p.2 st1 = .ok q.2 st2) xs ys := by
  intro xs
  induction xs with
  | nil =>
      intro fuel C st ys st' h
      cases fuel with
      | zero => exact Res.noConfusion h
      | succ f =>
          simp only [resolveDictItems] at h
          injection h with h1 h2
          exact h1 ▸ List.Forall₂.nil
  | cons p rest ih =>
      intro fuel C st ys st' h
      cases fuel with
      | zero => exact Res.noConfusion h
      | succ f =>
          simp only [resolveDictItems] at h
          split at h
          · rename_i v st1 heq
            split at h
            · rename_i ys2 st2 heq2
              injection h with h1 h2
              exact h1 ▸ List.Forall₂.cons ⟨rfl, f, st, st1, heq⟩ (ih f C st1 ys2 st2 heq2)
            · exact Res.noConfusion h
          · exact Res.noConfusion h

theorem forall2_keys {α β : Type} {R : (String × α) → (String × β) → Prop}
    (hkey : ∀ p q, R p q → p.1 = q.1) :
    ∀ {xs : List (String × α)} {ys : List (String × β)}, List.Forall₂ R xs ys →
      ys.map Prod.fst = xs.map Prod.fst := by
  intro xs ys h
  induction h with
  | nil => rfl
  | cons hpq hrest ihh =>
      rw [List.map_cons, List.map_cons, ihh, hkey _ _ hpq]

/-- C1 amended.  When the value is a tag, tag_resolver returns the
resolve result of that tag directly: for a non-context tag the whole
call IS the direct resolve (no deep copy of the result and no recursion
into it — the dict/list recursion of lines 125-130 tests the ORIGINAL
value, which is a tag, not a container).  The mapping/sequence recursion
applies when the original value is a mapping or sequence: then the
result is a mapping with the same keys in order (resp. a sequence of the
same length) whose every entry is the recursive resolution of the
corresponding original entry. -/
theorem c1_tag_substitution_and_recursion :
    (∀ (fuel : Nat) (C : RCtx) (v : Val) (st : St), v.isTag = true →
        v.isTagContext = false →
        tagResolver (fuel + 1) C v st = resolveDirect fuel C v st) ∧
    (∀ (fuel : Nat) (C : RCtx) (xs : List (String × Val)) (st : St) (w : Val) (st' : St),
        tagResolver fuel C (.dict xs) st = .ok w st' →
        ∃ ys, w = .dict ys ∧ ys.map Prod.fst = xs.map Prod.fst ∧
          List.Forall₂ (fun p q => p.1 = q.1 ∧ ∃ (f2 : Nat) (st1 st2 : St),
            tagResolver f2 C p.2 st1 = .ok q.2 st2) xs ys) ∧
    (∀ (fuel : Nat) (C : RCtx) (xs : List Val) (st : St) (w : Val) (st' : St),
        tagResolver fuel C (.list xs) st = .ok w st' →
        ∃ ys, w = .list ys ∧ ys.length = xs.length ∧
          List.Forall₂ (fun x y => ∃ (f2 : Nat) (st1 st2 : St),
            tagResolver f2 C x st1 = .ok y st2) xs ys) := by
  refine ⟨?_, ?_, ?_⟩
  · intro fuel C v st h1 h2
    cases hr : resolveDirect fuel C v st with
    | ok val st2 =>
        cases v <;> simp_all [tagResolver, pushCtx, popCtx, Val.isTag, Val.isTagContext]
    | err e st2 =>
        cases v <;> simp_all [tagResolver, pushCtx, popCtx, Val.isTag, Val.isTagContext]
  · intro fuel C xs st w st' h
    cases fuel with
    | zero => exact Res.noConfusion h
    | succ f =>
        simp [tagResolver, pushCtx, popCtx, Val.isTag] at h
        split at h
        · rename_i ys st3 heq
          injection h with h1 h2
          have hf := resolveDictItems_elems xs f C st ys st3 heq
          exact ⟨ys, h1.symm, forall2_keys (fun p q hpq => hpq.1) hf, hf⟩
        · exact Res.noConfusion h
  · intro fuel C xs st w st' h
    cases fuel with
    | zero => exact Res.noConfusion h
    | succ f =>
        simp [tagResolver, pushCtx, popCtx, Val.isTag] at h
        split at h
        · rename_i ys st3 heq
          injection h with h1 h2
          have hf := resolveListItems_elems xs f C st ys st3 heq
          exact ⟨ys, h1.symm, (List.Forall₂.length_eq hf).symm, hf⟩
        · exact Res.noConfusion h

/-- A config resolving the HOME environment variable, and a blueprint
whose context binds k to a mapping that still contains an Env tag. -/
def cfgE : Config :=
  ⟨fun k => if k = "HOME" then some "resolvedhome" else none,
   fun _ _ => none, fun _ _ => .error ()⟩

def bpE : Blueprint := ⟨1, [], [("k", .dict [("a", .env "HOME" .null)])]⟩

def CE : RCtx := ⟨cfgE, ent0, bpE⟩

/-- C1 counterexample: a Context tag resolving to a mapping that
contains an Env tag.  tag_resolver returns that mapping with the Env tag
STILL UNRESOLVED (the recursion keys on the original value, a tag, so
the container produced by resolve is never walked), although resolving
the contained tag itself would yield the string "resolvedhome" — the
claim's predicted recursive resolution does not happen. -/
theorem c1_counterexample :
    tagResolver 10 CE (.ctx "k" .null) St.clean =
      .ok (.dict [("a", .env "HOME" .null)]) St.clean ∧
    tagResolver 10 CE (.env "HOME" .null) St.clean = .ok (.str "resolvedhome") St.clean ∧
    Val.dict [("a", .env "HOME" .null)] ≠ Val.dict [("a", .str "resolvedhome")] := by
  refine ⟨rfl, rfl, ?_⟩
  intro h
  simp at h

/-- C1 witness: a non-context tag resolves as the direct dispatch, and a
concrete mapping resolves to a mapping with the same keys. -/
theorem c1_witness :
    tagResolver 6 C0 (.env "X" (.int 5)) St.clean =
      resolveDirect 5 C0 (.env "X" (.int 5)) St.clean ∧
    (∃ ys, (tagResolver 10 CE (.dict [("a", .env "HOME" .null)]) St.clean).val? =
        some (.dict ys) ∧ ys.map Prod.fst = ["a"]) := by
  constructor
  · exact c1_tag_substitution_and_recursion.1 5 C0 (.env "X" (.int 5)) St.clean rfl rfl
  · obtain ⟨ys, h1, h2, h3⟩ := c1_tag_substitution_and_recursion.2.1 10 CE
      [("a", .env "HOME" .null)] St.clean _ _ rfl
    refine ⟨ys, by rw [← h1]; rfl, by rw [h2]; rfl⟩

/-! ## KeyOf (C3) -/

theorem find?_first_match {α : Type} (p : α → Bool) : ∀ (l1 : List α) (x : α) (l2 : List α),
    (∀ y ∈ l1, p y = false) → p x = true →
    List.find? p (l1 ++ x :: l2) = some x := by
  intro l1
  induction l1 with
  | nil =>
      intro x l2 _ hx
      exact List.find?_cons_of_pos _ hx
  | cons a r ih =>
      intro x l2 hnl hx
      have ha : p a = false := hnl a (List.mem_cons_self _ _)
      rw [List.cons_append, List.find?_cons_of_neg _ (by simp [ha])]
      exact ih x l2 (fun y hy => hnl y (List.mem_cons_of_mem _ hy)) hx

/-- C3 amended.  KeyOf.resolve scans the blueprint's entries in declared
order for the first entry whose id matches and whose instance reference
is set; without one it raises EntryInvalid.  The policy-binding special
case keys on the referencing entry's RAW model attribute: when that
attribute is a string it is lowercased and compared against
authentik_policies.policybinding (returning pbm_uuid on a match, pk
otherwise); when it is a tag (so the resolved model name may well be the
policy-binding type) resolve instead raises AttributeError, because
str.lower is called on the unresolved attribute. -/
theorem c3_keyof_scan (idFrom : String) (ent : Entry) (bp : Blueprint) :
    ((∀ e2 ∈ bp.entries, entryMatches idFrom e2 = false) →
        keyOfResolve idFrom ent bp =
          .error (.entryInvalid ("KeyOf: failed to find entry with id of " ++ idFrom ++
            " and a model instance"))) ∧
    (∀ (l1 : List Entry) (e : Entry) (l2 : List Entry) (i : ModelInst),
        bp.entries = l1 ++ e :: l2 →
        (∀ e2 ∈ l1, entryMatches idFrom e2 = false) →
        e.id = some idFrom → e.inst = some i →
        ((i.pbmUuid = none → keyOfResolve idFrom ent bp = .ok i.pk) ∧
         (∀ u, i.pbmUuid = some u →
            ((∀ s, ent.model = .str s → keyOfResolve idFrom ent bp =
                .ok (if pyLower s == "authentik_policies.policybinding" then u
                     else i.pk)) ∧
             (ent.model.isTag = true →
                keyOfResolve idFrom ent bp =
                  .error (.attributeError "object has no attribute lower")))))) := by
  constructor
  · intro hall
    have hfind : bp.entries.find? (entryMatches idFrom) = none := by
      rw [List.find?_eq_none]
      intro x hx
      simp [hall x hx]
    simp [keyOfResolve, hfind]
  · intro l1 e l2 i hsplit hl1 hid hinst
    have hme : entryMatches idFrom e = true := by
      simp [entryMatches, hid, hinst]
    have hfind : bp.entries.find? (entryMatches idFrom) = some e := by
      rw [hsplit]
      exact find?_first_match _ l1 e l2 hl1 hme
    constructor
    · intro hpbm
      simp [keyOfResolve, hfind, hinst, hpbm]
    · intro u hpbm
      constructor
      · intro s hs
        simp [keyOfResolve, hfind, hinst, hpbm, hs]
        split <;> rfl
      · intro htag
        cases hm : ent.model <;>
          first
            | (rw [hm] at htag; simp [Val.isTag] at htag; done)
            | (simp [keyOfResolve, hfind, hinst, hpbm, hm]; done)

/-- A referencing entry whose model attribute is a tag (an Env lookup),
a target entry with id x and a materialized PolicyBindingModel
instance. -/
def entTagModel : Entry := ⟨.env "M" .null, .dstate .present, [], [], [], none, none⟩

def targetInst : ModelInst := ⟨.str "PK", some (.str "UUID")⟩

def entX : Entry :=
  ⟨.str "authentik_policies.policy", .dstate .present, [], [], [], some "x", some targetInst⟩

def bpX : Blueprint := ⟨1, [entX], []⟩

def cfgM : Config :=
  ⟨fun k => if k = "M" then some "authentik_policies.policybinding" else none,
   fun _ _ => none, fun _ _ => .error ()⟩

def CM : RCtx := ⟨cfgM, entTagModel, bpX⟩

/-- C3 counterexample: the referencing entry's model is a tag that
RESOLVES to the policy-binding model name (first conjunct), and the
target's materialized instance is a PolicyBindingModel; the claim
predicts the alternate key UUID, but KeyOf.resolve calls .lower() on
the raw tag-valued model attribute and raises AttributeError instead. -/
theorem c3_counterexample :
    resolveDirect 5 CM (.env "M" .null) St.clean =
      .ok (.str "authentik_policies.policybinding") St.clean ∧
    keyOfResolve "x" entTagModel bpX =
      .error (.attributeError "object has no attribute lower") ∧
    keyOfResolve "x" entTagModel bpX ≠ .ok (.str "UUID") := by
  refine ⟨rfl, rfl, ?_⟩
  intro h
  have he : keyOfResolve "x" entTagModel bpX =
      .error (.attributeError "object has no attribute lower") := rfl
  rw [he] at h
  exact Except.noConfusion h

/-- A referencing entry with a plain string model naming the
policy-binding type in mixed case. -/
def entStr : Entry :=
  ⟨.str "AUTHENTIK_POLICIES.PolicyBinding", .dstate .present, [], [], [], none, none⟩

/-- C3 witness: with the string-modelled referencing entry, KeyOf x
returns the target's pbm_uuid (case-insensitive model comparison), and
KeyOf y (no matching materialized entry) fails with EntryInvalid. -/
theorem c3_witness :
    keyOfResolve "x" entStr bpX = .ok (.str "UUID") ∧
    keyOfResolve "y" entStr bpX =
      .error (.entryInvalid ("KeyOf: failed to find entry with id of " ++ "y" ++
        " and a model instance")) := by
  constructor
  · have h := (((c3_keyof_scan "x" entStr bpX).2 [] entX [] targetInst rfl
      (by intro e2 he2; simp at he2) rfl rfl).2 (.str "UUID") rfl).1
      "AUTHENTIK_POLICIES.PolicyBinding" rfl
    rw [h]
    rfl
  · refine (c3_keyof_scan "y" entStr bpX).1 ?_
    intro e2 he2
    have : e2 = entX := by simpa [bpX] using he2
    subst this
    rfl

/-! ## get_attrs (C9) -/

/-- A field entry strikes a data entry (k, v) when its name is k and it
is read-only, or its initial value equals v, or k ends in _set;
removedBy is the union over all serializer fields. -/
def removedBy (fields : List (String × FieldInfo)) (k : String) (v : Val) : Bool :=
  fields.any (fun f => k == f.1 && (f.2.readOnly || Val.beq f.2.initial v ||
    pyEndsWith k "_set"))

theorem lookup_none_of_keys {k : String} : ∀ (l : List (String × Val)),
    (∀ p ∈ l, p.1 ≠ k) → List.lookup k l = none := by
  intro l
  induction l with
  | nil => intro _; rfl
  | cons q r ih =>
      intro h
      have hq : q.1 ≠ k := h q (List.mem_cons_self _ _)
      have hk : (k == q.1) = false := by
        simp only [beq_eq_false_iff_ne]
        exact fun he => hq he.symm
      simp only [List.lookup, hk]
      exact ih (fun p hp => h p (List.mem_cons_of_mem _ hp))

theorem lookup_none_keys (data : List (String × Val)) (k : String)
    (h : List.lookup k data = none) : ∀ p ∈ data, p.1 ≠ k := by
  induction data with
  | nil => intro p hp; simp at hp
  | cons q r ih =>
      intro p hp
      by_cases ha : k = q.1
      · exfalso
        have hb : (k == q.1) = true := by simp [ha]
        simp [List.lookup, hb] at h
      · have hb : (k == q.1) = false := by
          simp only [beq_eq_false_iff_ne]
          exact ha
        simp only [List.lookup, hb] at h
        rcases List.mem_cons.mp hp with hh | hh
        · rw [hh]
          exact fun he => ha he.symm
        · exact ih h p hh


theorem lookup_popField_self (data : List (String × Val)) (k : String) :
    List.lookup k (popField data k) = none := by
  refine lookup_none_of_keys _ ?_
  intro p hp
  have := List.of_mem_filter hp
  simpa using this

theorem popField_idem (data : List (String × Val)) (k : String) :
    popField (popField data k) k = popField data k := by
  simp [popField, List.filter_filter]

theorem nodup_lookup_mem {data : List (String × Val)}
    (hd : (data.map Prod.fst).Nodup) {k : String} {v : Val} (hp : (k, v) ∈ data) :
    List.lookup k data = some v := by
  induction data with
  | nil => simp at hp
  | cons q r ih =>
      simp only [List.map_cons, List.nodup_cons] at hd
      rcases List.mem_cons.mp hp with hh | hh
      · rw [← hh]
        simp [List.lookup]
      · have hk : (k == q.1) = false := by
          simp only [beq_eq_false_iff_ne]
          intro he
          exact hd.1 (he ▸ (List.mem_map_of_mem Prod.fst hh))
        simp only [List.lookup, hk]
        exact ih hd.2 hh

/-- The three sequential pops of one get_attrs iteration amount to: pop
the field iff it is read-only, or its initial equals the current value,
or its name ends in _set. -/
theorem getAttrsStep_eq (data : List (String × Val)) (f : String × FieldInfo) :
    getAttrsStep data f =
      match List.lookup f.1 data with
      | none => data
      | some v =>
          if f.2.readOnly || Val.beq f.2.initial v || pyEndsWith f.1 "_set"
          then popField data f.1 else data := by
  unfold getAttrsStep
  cases hl : List.lookup f.1 data with
  | none => rfl
  | some v =>
      by_cases hro : f.2.readOnly
      · have h2 : List.lookup f.1 (popField data f.1) = none := lookup_popField_self data f.1
        by_cases hew : pyEndsWith f.1 "_set" <;>
          simp [hro, h2, hew, popField_idem]
      · by_cases hbq : Val.beq f.2.initial v
        · by_cases hew : pyEndsWith f.1 "_set" <;>
            simp [hro, hl, hbq, hew, popField_idem]
        · by_cases hew : pyEndsWith f.1 "_set" <;>
            simp [hro, hl, hbq, hew]

/-- One iteration as a filter, for duplicate-free data keys. -/
theorem getAttrsStep_filter (data : List (String × Val)) (f : String × FieldInfo)
    (hd : (data.map Prod.fst).Nodup) :
    getAttrsStep data f = data.filter (fun p =>
      !(p.1 == f.1 && (f.2.readOnly || Val.beq f.2.initial p.2 ||
        pyEndsWith p.1 "_set"))) := by
  rw [getAttrsStep_eq]
  cases hl : List.lookup f.1 data with
  | none =>
      refine (List.filter_eq_self.mpr ?_).symm
      intro p hp
      have := lookup_none_keys data f.1 hl p hp
      simp [this]
  | some v =>
      show (if f.2.readOnly || Val.beq f.2.initial v || pyEndsWith f.1 "_set"
            then popField data f.1 else data) = _
      by_cases hcond : (f.2.readOnly || Val.beq f.2.initial v ||
          pyEndsWith f.1 "_set") = true
      · rw [if_pos hcond]
        unfold popField
        apply List.filter_congr
        intro p hp
        by_cases hk : p.1 = f.1
        · have h3 := nodup_lookup_mem hd (k := p.1) (v := p.2) hp
          rw [hk, hl] at h3
          have hv : p.2 = v := Option.some.inj h3.symm
          simp [hk, hv, hcond]
        · have hb : (p.1 == f.1) = false := by
            simp only [beq_eq_false_iff_ne]
            exact hk
          simp [hb, hk]
      · rw [if_neg hcond]
        refine (List.filter_eq_self.mpr ?_).symm
        intro p hp
        by_cases hk : p.1 = f.1
        · have h3 := nodup_lookup_mem hd (k := p.1) (v := p.2) hp
          rw [hk, hl] at h3
          have hv : p.2 = v := Option.some.inj h3.symm
          simp only [Bool.or_eq_true, not_or, Bool.not_eq_true] at hcond
          simp [hk, hv, hcond.1.1, hcond.1.2, hcond.2]
        · have hb : (p.1 == f.1) = false := by
            simp only [beq_eq_false_iff_ne]
            exact hk
          simp [hb, hk]

theorem getAttrs_fold : ∀ (fields : List (String × FieldInfo)) (data : List (String × Val)),
    (data.map Prod.fst).Nodup →
    List.foldl getAttrsStep data fields =
      data.filter (fun p => !removedBy fields p.1 p.2) := by
  intro fields
  induction fields with
  | nil =>
      intro data hd
      simp [removedBy]
  | cons f rest ih =>
      intro data hd
      rw [List.foldl_cons, getAttrsStep_filter data f hd]
      have hd2 : (((data.filter (fun p =>
          !(p.1 == f.1 && (f.2.readOnly || Val.beq f.2.initial p.2 ||
            pyEndsWith p.1 "_set"))))).map Prod.fst).Nodup :=
        hd.sublist ((List.filter_sublist data).map Prod.fst)
      rw [ih _ hd2, List.filter_filter]
      apply List.filter_congr
      intro p hp
      simp only [removedBy, List.any_cons, Bool.not_or]
      rw [Bool.and_comm]

/-- C9.  get_attrs returns the serialized data mapping with exactly
those fields removed that some serializer field of the same name
strikes: the field is read-only, or its declared initial value equals
the serialized value, or the name ends in _set; every other entry is
kept, in order, with its serialized value. -/
theorem c9_get_attrs_drops (s : SerializerData) (hd : (s.data.map Prod.fst).Nodup) :
    getAttrs s = s.data.filter (fun p => !removedBy s.fields p.1 p.2) :=
  getAttrs_fold s.fields s.data hd

/-- A serializer contract: pk read-only, name with blank initial,
groups_set a reverse relation, title with blank initial; the serialized
data has title equal to its initial. -/
def serEx : SerializerData :=
  ⟨[("pk", ⟨true, .null⟩), ("name", ⟨false, .str ""⟩), ("groups_set", ⟨false, .null⟩),
    ("title", ⟨false, .str ""⟩)],
   [("pk", .int 1), ("name", .str "n"), ("groups_set", .list []), ("title", .str "")]⟩

/-- C9 witness: pk (read-only), groups_set (naming convention) and
title (value equals initial) are dropped; name is kept with its
serialized value. -/
theorem c9_witness :
    getAttrs serEx = serEx.data.filter (fun p => !removedBy serEx.fields p.1 p.2) ∧
    getAttrs serEx = [("name", .str "n")] := by
  constructor
  · exact c9_get_attrs_drops serEx (by decide)
  · rfl

end AuthentikBlueprints
